import Mathlib

/-!
Verification of the `amazedb` group engine (src/amazedb/group.py).

The development shallowly embeds the group module: documents are association
lists of string fields to dynamic values, the encrypted-file round trip
(Fernet encrypt + JSON serialize) is modelled as the identity on the stored
document list, and every function of the source module (`merge`,
`merge_sort`, `binary_search`, `matchDocs`, and the `group` methods) is
translated into an executable Lean function.  Python exceptions are
modelled with `Except Err`.
-/

namespace AmazeDB

/-- Dynamic document values.  The source stores arbitrary JSON values; the
claims under verification only exercise integers and strings, so the model
restricts the value universe to those two constructors. -/
inductive Value where
  | vInt (n : Int)
  | vStr (s : String)
deriving DecidableEq, Repr

/-- Python `str(value)`: the string form used by the `__re` filter. -/
def Value.str : Value → String
  | .vInt n => toString n
  | .vStr s => s

/-- The runtime type of a value (`true` for `int`, `false` for `str`):
Python order comparisons are defined within a type and raise `TypeError`
across types. -/
def Value.tag : Value → Bool
  | .vInt _ => true
  | .vStr _ => false

/-- Python `<=` on values (used by `merge` and the `__gt`/`__lt` checks):
`none` models the `TypeError` raised on a cross-type comparison. -/
def Value.ble : Value → Value → Option Bool
  | .vInt a, .vInt b => some (decide (a ≤ b))
  | .vStr a, .vStr b => some (decide (a ≤ b))
  | _, _ => none

/-- Python `<` on values (used by `binary_search` and the `__lte`/`__gte`
checks): `none` models the `TypeError` raised on a cross-type
comparison. -/
def Value.blt : Value → Value → Option Bool
  | .vInt a, .vInt b => some (decide (a < b))
  | .vStr a, .vStr b => some (decide (a < b))
  | _, _ => none

/-- A document: a Python `dict` from field names to values, kept as an
association list in insertion order (Python dicts preserve insertion
order). -/
abbrev Doc := List (String × Value)

/-- Python `doc[key]` as an optional lookup (first matching field). -/
def docGet (d : Doc) (k : String) : Option Value :=
  match d with
  | [] => none
  | (k', v) :: rest => if k' = k then some v else docGet rest k

/-- Setting one key in a dict: overwrite in place when present (keeping the
field's position, as Python dicts do; a dict holds each key once, so only
the first occurrence can exist), append at the end otherwise. -/
def docSet (d : Doc) (k : String) (v : Value) : Doc :=
  match d with
  | [] => [(k, v)]
  | (k1, v1) :: rest => if k1 = k then (k, v) :: rest else (k1, v1) :: docSet rest k v

/-- Python `dict.update`: apply every key of `nv` in order. -/
def docUpdate (d : Doc) (nv : Doc) : Doc :=
  match nv with
  | [] => d
  | (k, v) :: rest => docUpdate (docSet d k v) rest

/-- Exceptions raised by the group module. -/
inductive Err where
  /-- `ValueError` raised by `merge` when a document lacks the sort key. -/
  | missingSortKey
  /-- `InvalidFilterError`. -/
  | invalidFilter
  /-- `InvalidRegExpError`. -/
  | invalidRegExp
  /-- Raw `KeyError` (uncaught, e.g. in `binary_search`). -/
  | keyError
  /-- `IndexError` on list subscripts. -/
  | indexError
  /-- `AttributeError` (e.g. `None.copy()` in `update_one`). -/
  | attributeError
  /-- `ValueError` from `list.remove` when the element is absent. -/
  | valueError
  /-- `TypeError` from an order comparison between values of different
  runtime types; uncaught everywhere in the module (`merge` catches only
  `KeyError`). -/
  | typeError
deriving DecidableEq, Repr

/-- Star closure `c*` against a string, with `k` the matcher for the rest of
the pattern: either the rest matches here, or `c` consumes one character and
the closure continues.  (Part of the model of the external `re` module.) -/
def matchStar (c : Char) (k : List Char → Bool) : List Char → Bool
  | [] => k []
  | ch :: s => k (ch :: s) || ((c = '.' || c = ch) && matchStar c k s)

/-- Matcher for the fragment of Python regular expressions exercised by the
filters: literal characters, `.`, and postfix `*`.  `re.match` semantics:
the pattern must match a prefix of the string starting at position 0. -/
def reMatchHere : List Char → List Char → Bool
  | [], _ => true
  | c :: '*' :: p, s => matchStar c (reMatchHere p) s
  | _ :: _, [] => false
  | c :: p, ch :: s => (c = '.' || c = ch) && reMatchHere p s

/-- A character the regex model treats as a literal: anything except the
regex metacharacters.  Patterns containing metacharacters outside the
modeled fragment (`+`, `?`, `[`, `]`, `(`, `)`, `|`, `\`, `$`, braces, a
non-leading `^`) are rejected by `patValid`, so the model never assigns
them a (wrong) result. -/
def plainChar (c : Char) : Bool :=
  !(c = '*' || c = '+' || c = '?' || c = '[' || c = ']' || c = '(' || c = ')' ||
    c = '\x7b' || c = '\x7d' || c = '|' || c = '\\' || c = '^' || c = '$' || c = '.')

/-- Whether a pattern lies in the modeled regex fragment: atoms are
literal characters or `.`, each optionally followed by one `*`.  This in
particular rejects the patterns Python itself rejects with `re.error`
("nothing to repeat": a `*` at the start or after another `*`), and also
rejects any pattern using constructs the model does not cover. -/
def patValid : List Char → Bool
  | [] => true
  | c :: '*' :: p =>
    (plainChar c || c = '.') &&
      (match p with
       | '*' :: _ => false
       | _ => patValid p)
  | c :: p => (plainChar c || c = '.') && patValid p

/-- Modelled from the spec: the external `re.match(pattern, s)` call used by
the `__re` filter, restricted to the pattern constructs the claims exercise
(leading `^` anchor — redundant under `re.match`'s match-at-start
semantics — literal characters, `.`, and postfix `*`).  `some b` reports
whether the pattern matches a prefix of `s`; `none` covers both the
patterns Python rejects with `re.error` and the patterns outside the
modeled fragment, for which the model deliberately assigns no result (no
theorem below relies on a `none` case).  The leading-anchor strip lives in
`stripCaret`. -/
def stripCaret : List Char → List Char
  | '^' :: rest => rest
  | q => q

/-- See `stripCaret`'s doc comment: `re.match(pattern, s)` on the
supported fragment. -/
def reMatch (pattern s : String) : Option Bool :=
  if patValid (stripCaret pattern.data) then
    some (reMatchHere (stripCaret pattern.data) s.data)
  else none

/-- A filter specification for one field: either a plain value (equality
check) or a Python dict from operator tags to operands.  Operands are
first-order `Value`s; in particular a `__cf` operand is not callable, so
`filters[i](doc)` raises and is wrapped into `InvalidFilterError`, which is
what the model returns for `__cf`. -/
inductive FilterSpec where
  | plain (v : Value)
  | ops (l : List (String × Value))
deriving DecidableEq, Repr

/-- The operator loop of `matchDocs`: checks every tagged operator against
the document's value, in dict order, with short-circuit on the first
failing check; unknown tags raise `InvalidFilterError`. -/
def matchOps (v : Value) : List (String × Value) → Except Err Bool
  | [] => .ok true
  | (tag, operand) :: rest =>
    if tag = "__ne" then
      if v = operand then .ok false else matchOps v rest
    else if tag = "__gt" then
      match Value.ble v operand with
      | none => .error .typeError
      | some true => .ok false
      | some false => matchOps v rest
    else if tag = "__lt" then
      match Value.ble operand v with
      | none => .error .typeError
      | some true => .ok false
      | some false => matchOps v rest
    else if tag = "__lte" then
      match Value.blt operand v with
      | none => .error .typeError
      | some true => .ok false
      | some false => matchOps v rest
    else if tag = "__gte" then
      match Value.blt v operand with
      | none => .error .typeError
      | some true => .ok false
      | some false => matchOps v rest
    else if tag = "__re" then
      match operand with
      | .vStr pat =>
        match reMatch pat (Value.str v) with
        | none => .error .invalidRegExp
        | some true => matchOps v rest
        | some false => .ok false
      | _ => .error .invalidRegExp
    else if tag = "__cf" then .error .invalidFilter
    else .error .invalidFilter

/-- `matchDocs(doc, filters)` from the source: a dict spec runs the operator
loop, any other spec is a plain equality check. -/
def matchDocs (v : Value) (spec : FilterSpec) : Except Err Bool :=
  match spec with
  | .ops l => matchOps v l
  | .plain w => .ok (decide (w = v))

/-- `merge(left, right, param)` from the source: merge two runs, comparing
`left[i][param] <= right[j][param]` and preferring the left element on
ties; once either side is exhausted the other side's remainder is appended
without further key accesses.  A `KeyError` on a key access is converted to
the `MissingSortKey` `ValueError` by the `try/except KeyError` around the
loop; the `TypeError` of a cross-type `<=` is not caught and propagates. -/
def merge (left right : List Doc) (param : String) : Except Err (List Doc) :=
  match left, right with
  | [], r => .ok r
  | a :: l, [] => .ok (a :: l)
  | a :: l, b :: r =>
    match docGet a param, docGet b param with
    | some av, some bv =>
      match Value.ble av bv with
      | none => .error .typeError
      | some true =>
        match merge l (b :: r) param with
        | .ok res => .ok (a :: res)
        | .error e => .error e
      | some false =>
        match merge (a :: l) r param with
        | .ok res => .ok (b :: res)
        | .error e => .error e
    | _, _ => .error .missingSortKey
termination_by left.length + right.length

/-- `merge_sort(array, param)` from the source: arrays of fewer than two
elements are returned as they are; otherwise the two halves (split at
`len(array) // 2`) are sorted recursively and merged. -/
def merge_sort (array : List Doc) (param : String) : Except Err (List Doc) :=
  if _h : array.length < 2 then .ok array
  else
    match merge_sort (array.take (array.length / 2)) param,
        merge_sort (array.drop (array.length / 2)) param with
    | .ok l, .ok r => merge l r param
    | .error e, _ => .error e
    | .ok _, .error e => .error e
termination_by array.length
decreasing_by
  · simp only [List.length_take]; omega
  · simp only [List.length_drop]; omega

/-- The `while l < u` loop of `binary_search`, with `l`, `u` the current
bracket.  `arr[mid][key]` raises an uncaught `KeyError` when the midpoint
document lacks the key. -/
def bsLoop (arr : List Doc) (key : String) (value : Value) (l u : Nat) :
    Except Err (Option Doc) :=
  if l < u then
    let mid := (l + u) / 2
    match arr.get? mid with
    | none => .error .indexError
    | some d =>
      match docGet d key with
      | none => .error .keyError
      | some v =>
        if v = value then .ok (some d)
        else
          match Value.blt v value with
          | none => .error .typeError
          | some true => bsLoop arr key value (mid + 1) u
          | some false => bsLoop arr key value l mid
  else .ok none
termination_by u - l
decreasing_by all_goals omega

/-- `binary_search(arr, key, value)` from the source: probe midpoints over
the bracket `l = 0`, `u = len(arr) - 1`; Python's `False` on a closed
bracket is modelled as `none`. -/
def binary_search (arr : List Doc) (key : String) (value : Value) :
    Except Err (Option Doc) :=
  bsLoop arr key value 0 (arr.length - 1)

/-- The per-document filter loop shared by `get_one`'s linear path and
`get`: each requested field is looked up (`KeyError` on a missing field is
caught and counts as a non-match for the whole document) and checked with
`matchDocs`, whose own exceptions propagate; checks short-circuit on the
first failure. -/
def matchDoc (d : Doc) (filters : List (String × FilterSpec)) : Except Err Bool :=
  match filters with
  | [] => .ok true
  | (f, spec) :: rest =>
    match docGet d f with
    | none => .ok false
    | some v =>
      match matchDocs v spec with
      | .error e => .error e
      | .ok false => .ok false
      | .ok true => matchDoc d rest

/-- The linear scan of `get_one`'s general path: return the first document
that passes all filters, `none` when the loop falls through. -/
def findFirst (docs : List Doc) (filters : List (String × FilterSpec)) :
    Except Err (Option Doc) :=
  match docs with
  | [] => .ok none
  | d :: rest =>
    match matchDoc d filters with
    | .error e => .error e
    | .ok true => .ok (some d)
    | .ok false => findFirst rest filters

/-- The collecting scan of `get`: every document that passes all filters,
in sequence order. -/
def filterDocs (docs : List Doc) (filters : List (String × FilterSpec)) :
    Except Err (List Doc) :=
  match docs with
  | [] => .ok []
  | d :: rest =>
    match matchDoc d filters with
    | .error e => .error e
    | .ok true =>
      match filterDocs rest filters with
      | .error e => .error e
      | .ok out => .ok (d :: out)
    | .ok false => filterDocs rest filters

/-- The query logic of `group.get_one` after the documents are loaded:
with exactly one filter whose spec is not a dict and no `sortby`, the fast
path sorts by the filter field and binary-searches; otherwise the sequence
is sorted by `sortby` when given and scanned linearly. -/
def get_one (docs : List Doc) (filters : List (String × FilterSpec))
    (sortby : Option String) : Except Err (Option Doc) :=
  match filters, sortby with
  | [(key, .plain value)], none =>
    match merge_sort docs key with
    | .error e => .error e
    | .ok sorted => binary_search sorted key value
  | _, _ =>
    match (match sortby with
           | some k => merge_sort docs k
           | none => .ok docs) with
    | .error e => .error e
    | .ok docs2 => findFirst docs2 filters

/-- The query logic of `group.get` after the documents are loaded: linear
scan collecting all matches, then an optional sort of the result. -/
def getAll (docs : List Doc) (filters : List (String × FilterSpec))
    (sortby : Option String) : Except Err (List Doc) :=
  match filterDocs docs filters with
  | .error e => .error e
  | .ok output =>
    match sortby with
    | some k => merge_sort output k
    | none => .ok output

/-- The state of one group: `file` is the decrypt-then-parse of the group
file (`Codec` modelled as the identity) and `cache` is `self.data`, present
exactly when `preLoad` is enabled. -/
structure GroupState where
  file : List Doc
  cache : Option (List Doc)
deriving DecidableEq, Repr

/-- The documents a read begins from: the in-memory cache when `preLoad`
is enabled, the decrypted file otherwise. -/
def docsOf (st : GroupState) : List Doc :=
  st.cache.getD st.file

/-- `group.get_one(filters, sortby)`. -/
def group.get_one (st : GroupState) (filters : List (String × FilterSpec))
    (sortby : Option String) : Except Err (Option Doc) :=
  AmazeDB.get_one (docsOf st) filters sortby

/-- `group.get(filters, sortby)` (`findAll`). -/
def group.get (st : GroupState) (filters : List (String × FilterSpec))
    (sortby : Option String) : Except Err (List Doc) :=
  getAll (docsOf st) filters sortby

/-- Python `list.remove(d)`: drop the first element equal to `d`, raising
`ValueError` when no element is equal. -/
def listRemove (l : List Doc) (d : Doc) : Except Err (List Doc) :=
  match l with
  | [] => .error .valueError
  | x :: xs =>
    if x = d then .ok xs
    else
      match listRemove xs d with
      | .error e => .error e
      | .ok rest => .ok (x :: rest)

/-- `[lst.remove(j) for j in ds]`: sequential removals; on the first
failure the removals already performed are kept (the comprehension has
mutated the list in place up to that point) and the error is reported. -/
def removeAllPartial (l : List Doc) (ds : List Doc) : List Doc × Option Err :=
  match ds with
  | [] => (l, none)
  | d :: rest =>
    match listRemove l d with
    | .error e => (l, some e)
    | .ok l2 => removeAllPartial l2 rest

/-- `group.insert(data)`: append to the cache when `preLoad` is enabled,
then load-append-save the file; returns `True`. -/
def group.insert (st : GroupState) (data : Doc) : GroupState × Except Err Bool :=
  (⟨st.file ++ [data], st.cache.map (fun c => c ++ [data])⟩, .ok true)

/-- `group.insert_many(*data)`: extend the cache when `preLoad` is enabled,
then load-extend-save the file; returns `True`. -/
def group.insert_many (st : GroupState) (data : List Doc) :
    GroupState × Except Err Bool :=
  (⟨st.file ++ data, st.cache.map (fun c => c ++ data)⟩, .ok true)

/-- `group.update_one(filters, nValues)`: fetch one document via
`get_one`, build the updated copy (`None.copy()` raises `AttributeError`
when nothing matched), replace it in the cache (remove + append) and then
in a freshly loaded file sequence; the file write happens last, so any
exception on the way leaves the file as it was. -/
def group.update_one (st : GroupState) (filters : List (String × FilterSpec))
    (nValues : Doc) : GroupState × Except Err Unit :=
  match group.get_one st filters none with
  | .error e => (st, .error e)
  | .ok none => (st, .error .attributeError)
  | .ok (some doc) =>
    let nDoc := docUpdate doc nValues
    match st.cache with
    | some c =>
      match listRemove c doc with
      | .error e => (st, .error e)
      | .ok c2 =>
        let cache2 := c2 ++ [nDoc]
        match listRemove st.file doc with
        | .error e => (⟨st.file, some cache2⟩, .error e)
        | .ok f2 => (⟨f2 ++ [nDoc], some cache2⟩, .ok ())
    | none =>
      match listRemove st.file doc with
      | .error e => (st, .error e)
      | .ok f2 => (⟨f2 ++ [nDoc], none⟩, .ok ())

/-- `group.update(filters, nValues)`: fetch all matches via `get`, build
updated copies, remove the originals and extend with the copies, first in
the cache and then in a freshly loaded file sequence; returns the number
of updated documents. -/
def group.update (st : GroupState) (filters : List (String × FilterSpec))
    (nValues : Doc) : GroupState × Except Err Nat :=
  match group.get st filters none with
  | .error e => (st, .error e)
  | .ok doc =>
    let nDoc := doc.map (fun d => docUpdate d nValues)
    match st.cache with
    | some c =>
      match removeAllPartial c doc with
      | (c2, some e) => (⟨st.file, some c2⟩, .error e)
      | (c2, none) =>
        let cache2 := c2 ++ nDoc
        match removeAllPartial st.file doc with
        | (_, some e) => (⟨st.file, some cache2⟩, .error e)
        | (f2, none) => (⟨f2 ++ nDoc, some cache2⟩, .ok nDoc.length)
    | none =>
      match removeAllPartial st.file doc with
      | (_, some e) => (st, .error e)
      | (f2, none) => (⟨f2 ++ nDoc, none⟩, .ok nDoc.length)

/-- `group.remove_one(filters)`: fetch one document via `get_one` and
remove it, first from the cache and then from a freshly loaded file
sequence.  When nothing matched, `doc` is `None` and `remove(None)` raises
`ValueError` before anything is written. -/
def group.remove_one (st : GroupState) (filters : List (String × FilterSpec)) :
    GroupState × Except Err Unit :=
  match group.get_one st filters none with
  | .error e => (st, .error e)
  | .ok none => (st, .error .valueError)
  | .ok (some doc) =>
    match st.cache with
    | some c =>
      match listRemove c doc with
      | .error e => (st, .error e)
      | .ok c2 =>
        match listRemove st.file doc with
        | .error e => (⟨st.file, some c2⟩, .error e)
        | .ok f2 => (⟨f2, some c2⟩, .ok ())
    | none =>
      match listRemove st.file doc with
      | .error e => (st, .error e)
      | .ok f2 => (⟨f2, none⟩, .ok ())

/-- `group.remove(filters)`: fetch all matches via `get` and remove them,
first from the cache and then from a freshly loaded file sequence; returns
the number of removed documents. -/
def group.remove (st : GroupState) (filters : List (String × FilterSpec)) :
    GroupState × Except Err Nat :=
  match group.get st filters none with
  | .error e => (st, .error e)
  | .ok doc =>
    match st.cache with
    | some c =>
      match removeAllPartial c doc with
      | (c2, some e) => (⟨st.file, some c2⟩, .error e)
      | (c2, none) =>
        match removeAllPartial st.file doc with
        | (_, some e) => (⟨st.file, some c2⟩, .error e)
        | (f2, none) => (⟨f2, some c2⟩, .ok doc.length)
    | none =>
      match removeAllPartial st.file doc with
      | (_, some e) => (st, .error e)
      | (f2, none) => (⟨f2, none⟩, .ok doc.length)

/-- The key of a document under a sort parameter, defaulting when absent
(the default is only ever exercised on documents that have the key). -/
def keyD (param : String) (d : Doc) : Value := (docGet d param).getD (Value.vInt 0)

/-- "Ascending by `document[param]`" as a relation on documents: the
Python comparison is defined and answers yes. -/
def keyLeB (param : String) (a b : Doc) : Prop :=
  Value.ble (keyD param a) (keyD param b) = some true

/-- Whether a document passes all the filters, as a boolean (true exactly
when `matchDoc` completes with `True`). -/
def matchB (d : Doc) (filters : List (String × FilterSpec)) : Bool :=
  match matchDoc d filters with
  | .ok true => true
  | _ => false

/-- A filter spec that never raises: evaluating it on any value completes
with a boolean.  Plain values and well-formed operator dicts have this
property; unknown tags, `__cf`, and `__re` with a bad pattern do not. -/
def SpecTotal (spec : FilterSpec) : Prop :=
  ∀ v : Value, ∃ b : Bool, matchDocs v spec = .ok b

/-- Whether a filter dict triggers `get_one`'s fast path together with an
absent `sortby`: exactly one filter whose spec is not a dict. -/
def isFastShape : List (String × FilterSpec) → Bool
  | [(_, .plain _)] => true
  | _ => false

theorem Value.ble_refl (a : Value) : Value.ble a a = some true := by
  cases a <;> simp [Value.ble]

theorem Value.ble_isSome_of_tag {a b : Value} (h : Value.tag a = Value.tag b) :
    ∃ bb, Value.ble a b = some bb := by
  cases a <;> cases b
  · exact ⟨_, rfl⟩
  · simp [Value.tag] at h
  · simp [Value.tag] at h
  · exact ⟨_, rfl⟩

theorem Value.ble_none_iff_tag (a b : Value) :
    Value.ble a b = none ↔ Value.tag a ≠ Value.tag b := by
  cases a <;> cases b <;> simp [Value.ble, Value.tag]

theorem Value.ble_false_swap {a b : Value} (h : Value.ble a b = some false) :
    Value.ble b a = some true := by
  cases a <;> cases b <;>
    simp only [Value.ble, Option.some.injEq, decide_eq_false_iff_not,
      decide_eq_true_eq, reduceCtorEq] at h ⊢ <;>
    first | exact h.elim | exact le_of_not_le h

theorem Value.ble_trans {a b c : Value} (h₁ : Value.ble a b = some true)
    (h₂ : Value.ble b c = some true) : Value.ble a c = some true := by
  cases a <;> cases b <;> cases c <;>
    simp only [Value.ble, Option.some.injEq, decide_eq_true_eq, reduceCtorEq] at * <;>
    first | rfl | trivial | exact le_trans h₁ h₂

theorem Value.blt_eq_not_ble (a b : Value) :
    Value.blt a b = (Value.ble b a).map Bool.not := by
  cases a <;> cases b <;>
    simp only [Value.blt, Value.ble, Option.map_some, Option.map_none] <;>
    first
    | rfl
    | (congr 1
       rw [← decide_not, decide_eq_decide]
       exact lt_iff_not_le)

theorem keyD_eq {param : String} {d : Doc} {v : Value} (h : docGet d param = some v) :
    keyD param d = v := by simp [keyD, h]

theorem keyLeB_trans {param : String} {a b c : Doc} (h₁ : keyLeB param a b)
    (h₂ : keyLeB param b c) : keyLeB param a c :=
  Value.ble_trans h₁ h₂

theorem keyLeB_of_false {param : String} {a b : Doc}
    (h : Value.ble (keyD param a) (keyD param b) = some false) : keyLeB param b a :=
  Value.ble_false_swap h

theorem merge_ok_perm {left right : List Doc} {param : String} {out : List Doc}
    (h : merge left right param = .ok out) : out.Perm (left ++ right) := by
  induction left, right, param using merge.induct generalizing out with
  | case1 param r => simp [merge] at h; subst h; rfl
  | case2 param a l => simp [merge] at h; subst h; simp
  | case3 param a l b r av bv hb ha hcmp =>
    simp [merge, ha, hb, hcmp] at h
  | case4 param a l b r av bv hb ha hle res hrec IH =>
    simp [merge, ha, hb, hle, hrec] at h
    subst h
    exact (IH hrec).cons a
  | case5 param a l b r av bv hb ha hle e hrec IH =>
    simp [merge, ha, hb, hle, hrec] at h
  | case6 param a l b r av bv hb ha hle res hrec IH =>
    simp [merge, ha, hb, hle, hrec] at h
    subst h
    exact ((IH hrec).cons b).trans List.perm_middle.symm
  | case7 param a l b r av bv hb ha hle e hrec IH =>
    simp [merge, ha, hb, hle, hrec] at h
  | case8 param a l b r hmiss =>
    rw [merge] at h
    rcases h1 : docGet a param with _ | av <;> rcases h2 : docGet b param with _ | bv <;>
      simp [h1, h2] at h
    exact (hmiss av bv h1 h2).elim

theorem merge_all_ok {left right : List Doc} {param : String} {t : Bool}
    (hl : ∀ d ∈ left, (docGet d param).isSome)
    (hr : ∀ d ∈ right, (docGet d param).isSome)
    (htl : ∀ d ∈ left, ∀ v, docGet d param = some v → Value.tag v = t)
    (htr : ∀ d ∈ right, ∀ v, docGet d param = some v → Value.tag v = t) :
    ∃ out, merge left right param = .ok out := by
  induction left, right, param using merge.induct with
  | case1 param r => exact ⟨r, by simp [merge]⟩
  | case2 param a l => exact ⟨a :: l, by simp [merge]⟩
  | case3 param a l b r av bv hb ha hcmp =>
    have h1 := htl a (by simp) av ha
    have h2 := htr b (by simp) bv hb
    rw [Value.ble_none_iff_tag, h1, h2] at hcmp
    exact (hcmp rfl).elim
  | case4 param a l b r av bv hb ha hle res hrec IH =>
    exact ⟨a :: res, by simp [merge, ha, hb, hle, hrec]⟩
  | case5 param a l b r av bv hb ha hle e hrec IH =>
    obtain ⟨out, hout⟩ := IH (fun d hd => hl d (List.mem_cons_of_mem a hd)) hr
      (fun d hd => htl d (List.mem_cons_of_mem a hd)) htr
    simp [hout] at hrec
  | case6 param a l b r av bv hb ha hle res hrec IH =>
    exact ⟨b :: res, by simp [merge, ha, hb, hle, hrec]⟩
  | case7 param a l b r av bv hb ha hle e hrec IH =>
    obtain ⟨out, hout⟩ := IH hl (fun d hd => hr d (List.mem_cons_of_mem b hd))
      htl (fun d hd => htr d (List.mem_cons_of_mem b hd))
    simp [hout] at hrec
  | case8 param a l b r hmiss =>
    have ha := hl a (by simp)
    have hb := hr b (by simp)
    rcases h1 : docGet a param with _ | av <;> rcases h2 : docGet b param with _ | bv <;>
      simp [h1, h2] at ha hb ⊢
    exact (hmiss av bv h1 h2).elim

theorem merge_ok_sorted {left right : List Doc} {param : String} {out : List Doc}
    (h : merge left right param = .ok out)
    (hsl : left.Pairwise (keyLeB param)) (hsr : right.Pairwise (keyLeB param)) :
    out.Pairwise (keyLeB param) := by
  induction left, right, param using merge.induct generalizing out with
  | case1 param r => simp [merge] at h; subst h; exact hsr
  | case2 param a l => simp [merge] at h; subst h; exact hsl
  | case3 param a l b r av bv hb ha hcmp =>
    simp [merge, ha, hb, hcmp] at h
  | case4 param a l b r av bv hb ha hle res hrec IH =>
    simp [merge, ha, hb, hle, hrec] at h
    subst h
    rw [List.pairwise_cons] at hsl ⊢
    refine ⟨?_, IH hrec hsl.2 hsr⟩
    intro x hx
    rcases List.mem_append.mp ((merge_ok_perm hrec).mem_iff.mp hx) with hxl | hxbr
    · exact hsl.1 x hxl
    · have hab : keyLeB param a b := by
        unfold keyLeB
        rw [keyD_eq ha, keyD_eq hb]
        exact hle
      rcases List.mem_cons.mp hxbr with rfl | hxr
      · exact hab
      · exact keyLeB_trans hab ((List.pairwise_cons.mp hsr).1 x hxr)
  | case5 param a l b r av bv hb ha hle e hrec IH =>
    simp [merge, ha, hb, hle, hrec] at h
  | case6 param a l b r av bv hb ha hle res hrec IH =>
    simp [merge, ha, hb, hle, hrec] at h
    subst h
    rw [List.pairwise_cons] at hsr ⊢
    refine ⟨?_, IH hrec hsl hsr.2⟩
    intro x hx
    have hba : keyLeB param b a := by
      apply keyLeB_of_false
      rw [keyD_eq ha, keyD_eq hb]
      exact hle
    rcases List.mem_append.mp ((merge_ok_perm hrec).mem_iff.mp hx) with hxal | hxr
    · rcases List.mem_cons.mp hxal with rfl | hxl
      · exact hba
      · exact keyLeB_trans hba ((List.pairwise_cons.mp hsl).1 x hxl)
    · exact hsr.1 x hxr
  | case7 param a l b r av bv hb ha hle e hrec IH =>
    simp [merge, ha, hb, hle, hrec] at h
  | case8 param a l b r hmiss =>
    rw [merge] at h
    rcases h1 : docGet a param with _ | av <;> rcases h2 : docGet b param with _ | bv <;>
      simp [h1, h2] at h
    exact (hmiss av bv h1 h2).elim

theorem merge_ok_filter {left right : List Doc} {param : String} {out : List Doc}
    {v : Value} (h : merge left right param = .ok out)
    (hsl : left.Pairwise (keyLeB param)) :
    out.filter (fun d => decide (docGet d param = some v)) =
      left.filter (fun d => decide (docGet d param = some v)) ++
        right.filter (fun d => decide (docGet d param = some v)) := by
  induction left, right, param using merge.induct generalizing out with
  | case1 param r => simp [merge] at h; subst h; simp
  | case2 param a l => simp [merge] at h; subst h; simp
  | case3 param a l b r av bv hb ha hcmp =>
    simp [merge, ha, hb, hcmp] at h
  | case4 param a l b r av bv hb ha hle res hrec IH =>
    simp [merge, ha, hb, hle, hrec] at h
    subst h
    rw [List.pairwise_cons] at hsl
    by_cases hPa : docGet a param = some v <;>
      simp [List.filter_cons, hPa, IH hrec hsl.2]
  | case5 param a l b r av bv hb ha hle e hrec IH =>
    simp [merge, ha, hb, hle, hrec] at h
  | case6 param a l b r av bv hb ha hle res hrec IH =>
    simp [merge, ha, hb, hle, hrec] at h
    subst h
    have IH2 := IH hrec hsl
    by_cases hPb : docGet b param = some v
    · have hbv : bv = v := by rw [hb] at hPb; exact Option.some.inj hPb
      have hnone : ∀ x ∈ a :: l, ¬ docGet x param = some v := by
        intro x hxal hxv
        have hax : keyLeB param a x ∨ x = a := by
          rcases List.mem_cons.mp hxal with rfl | hxl
          · exact Or.inr rfl
          · exact Or.inl ((List.pairwise_cons.mp hsl).1 x hxl)
        have hxval : keyD param x = v := keyD_eq hxv
        have hab : Value.ble av bv = some true := by
          rcases hax with hax | rfl
          · have h1 : Value.ble (keyD param a) v = some true := hxval ▸ hax
            rw [keyD_eq ha] at h1
            rw [hbv]
            exact h1
          · rw [keyD_eq ha] at hxval
            rw [hxval, hbv]
            exact Value.ble_refl v
        rw [hab] at hle
        simp at hle
      have hfil : (a :: l).filter (fun d => decide (docGet d param = some v)) = [] := by
        rw [List.filter_eq_nil_iff]
        intro x hx
        simpa using hnone x hx
      simp [List.filter_cons, hPb, IH2, hfil]
    · simp [List.filter_cons, hPb, IH2]
  | case7 param a l b r av bv hb ha hle e hrec IH =>
    simp [merge, ha, hb, hle, hrec] at h
  | case8 param a l b r hmiss =>
    rw [merge] at h
    rcases h1 : docGet a param with _ | av <;> rcases h2 : docGet b param with _ | bv <;>
      simp [h1, h2] at h
    exact (hmiss av bv h1 h2).elim

theorem merge_sort_eq_small {array : List Doc} {param : String}
    (hlen : array.length < 2) : merge_sort array param = .ok array := by
  rw [merge_sort.eq_def, dif_pos hlen]

theorem merge_sort_eq_merge {array : List Doc} {param : String}
    (hlen : ¬ array.length < 2) {l r : List Doc}
    (hl : merge_sort (array.take (array.length / 2)) param = .ok l)
    (hr : merge_sort (array.drop (array.length / 2)) param = .ok r) :
    merge_sort array param = merge l r param := by
  rw [merge_sort.eq_def, dif_neg hlen, hl, hr]

theorem merge_sort_eq_error_left {array : List Doc} {param : String}
    (hlen : ¬ array.length < 2) {e : Err}
    (hl : merge_sort (array.take (array.length / 2)) param = .error e) :
    merge_sort array param = .error e := by
  rw [merge_sort.eq_def, dif_neg hlen, hl]

theorem merge_sort_eq_error_right {array : List Doc} {param : String}
    (hlen : ¬ array.length < 2) {l : List Doc} {e : Err}
    (hl : merge_sort (array.take (array.length / 2)) param = .ok l)
    (hr : merge_sort (array.drop (array.length / 2)) param = .error e) :
    merge_sort array param = .error e := by
  rw [merge_sort.eq_def, dif_neg hlen, hl, hr]

theorem merge_sort_ok_perm {array : List Doc} {param : String} {out : List Doc}
    (h : merge_sort array param = .ok out) : out.Perm array := by
  induction array, param using merge_sort.induct generalizing out with
  | case1 array param hlen =>
    rw [merge_sort_eq_small hlen] at h
    injection h with h
    subst h
    rfl
  | case2 array param hlen l r hr hl IHl IHr =>
    rw [merge_sort_eq_merge hlen hl hr] at h
    refine (merge_ok_perm h).trans ?_
    refine ((IHl hl).append (IHr hr)).trans ?_
    rw [List.take_append_drop]
  | case3 array param hlen e herr IHl IHr =>
    rw [merge_sort_eq_error_left hlen herr] at h
    exact (Except.noConfusion h)
  | case4 array param hlen a e herr hok IHl IHr =>
    rw [merge_sort_eq_error_right hlen hok herr] at h
    exact (Except.noConfusion h)

theorem merge_error_eq {left right : List Doc} {param : String} {tg : Bool} {e : Err}
    (htl : ∀ d ∈ left, ∀ v, docGet d param = some v → Value.tag v = tg)
    (htr : ∀ d ∈ right, ∀ v, docGet d param = some v → Value.tag v = tg)
    (h : merge left right param = .error e) : e = .missingSortKey := by
  induction left, right, param using merge.induct with
  | case1 param r => simp [merge] at h
  | case2 param a l => simp [merge] at h
  | case3 param a l b r av bv hb ha hcmp =>
    have h1 := htl a (by simp) av ha
    have h2 := htr b (by simp) bv hb
    rw [Value.ble_none_iff_tag, h1, h2] at hcmp
    exact (hcmp rfl).elim
  | case4 param a l b r av bv hb ha hle res hrec IH =>
    simp [merge, ha, hb, hle, hrec] at h
  | case5 param a l b r av bv hb ha hle e2 hrec IH =>
    simp [merge, ha, hb, hle, hrec] at h
    subst h
    exact IH (fun d hd => htl d (List.mem_cons_of_mem a hd)) htr hrec
  | case6 param a l b r av bv hb ha hle res hrec IH =>
    simp [merge, ha, hb, hle, hrec] at h
  | case7 param a l b r av bv hb ha hle e2 hrec IH =>
    simp [merge, ha, hb, hle, hrec] at h
    subst h
    exact IH htl (fun d hd => htr d (List.mem_cons_of_mem b hd)) hrec
  | case8 param a l b r hmiss =>
    rw [merge] at h
    rcases h1 : docGet a param with _ | av <;> rcases h2 : docGet b param with _ | bv <;>
      simp [h1, h2] at h <;> first | exact h.symm | exact (hmiss av bv h1 h2).elim

theorem merge_sort_error_eq {array : List Doc} {param : String} {tg : Bool} {e : Err}
    (ht : ∀ d ∈ array, ∀ v, docGet d param = some v → Value.tag v = tg)
    (h : merge_sort array param = .error e) : e = .missingSortKey := by
  induction array, param using merge_sort.induct with
  | case1 array param hlen => rw [merge_sort_eq_small hlen] at h; exact (Except.noConfusion h)
  | case2 array param hlen l r hr hl IHl IHr =>
    rw [merge_sort_eq_merge hlen hl hr] at h
    have htt : ∀ d ∈ List.take (array.length / 2) array, ∀ v,
        docGet d param = some v → Value.tag v = tg :=
      fun d hd => ht d (List.mem_of_mem_take hd)
    have htd : ∀ d ∈ List.drop (array.length / 2) array, ∀ v,
        docGet d param = some v → Value.tag v = tg :=
      fun d hd => ht d (List.mem_of_mem_drop hd)
    have htl2 : ∀ d ∈ l, ∀ v, docGet d param = some v → Value.tag v = tg :=
      fun d hd => htt d ((merge_sort_ok_perm hl).mem_iff.mp hd)
    have htr2 : ∀ d ∈ r, ∀ v, docGet d param = some v → Value.tag v = tg :=
      fun d hd => htd d ((merge_sort_ok_perm hr).mem_iff.mp hd)
    exact merge_error_eq htl2 htr2 h
  | case3 array param hlen e2 herr IHl IHr =>
    rw [merge_sort_eq_error_left hlen herr] at h
    injection h with h
    subst h
    exact IHl (fun d hd => ht d (List.mem_of_mem_take hd)) herr
  | case4 array param hlen a e2 herr hok IHl IHr =>
    rw [merge_sort_eq_error_right hlen hok herr] at h
    injection h with h
    subst h
    exact IHr (fun d hd => ht d (List.mem_of_mem_drop hd)) herr

theorem merge_sort_spec : ∀ (array : List Doc) (param : String) (tg : Bool),
    (∀ d ∈ array, (docGet d param).isSome) →
    (∀ d ∈ array, ∀ v, docGet d param = some v → Value.tag v = tg) →
    ∃ out, merge_sort array param = .ok out ∧ out.Perm array ∧
      out.Pairwise (keyLeB param) ∧
      ∀ v, out.filter (fun d => decide (docGet d param = some v)) =
        array.filter (fun d => decide (docGet d param = some v)) := by
  intro array param tg
  induction array, param using merge_sort.induct with
  | case1 array param hlen =>
    intro _ _
    refine ⟨array, merge_sort_eq_small hlen, .refl _, ?_, fun v => rfl⟩
    rcases array with _ | ⟨a, _ | ⟨b, t2⟩⟩
    · exact .nil
    · exact List.pairwise_singleton _ _
    · simp at hlen; omega
  | case2 array param hlen l r hr hl IHl IHr =>
    intro hkeys htag
    have hkt : ∀ d ∈ List.take (array.length / 2) array, (docGet d param).isSome :=
      fun d hd => hkeys d (List.mem_of_mem_take hd)
    have hkd : ∀ d ∈ List.drop (array.length / 2) array, (docGet d param).isSome :=
      fun d hd => hkeys d (List.mem_of_mem_drop hd)
    have htt : ∀ d ∈ List.take (array.length / 2) array, ∀ v,
        docGet d param = some v → Value.tag v = tg :=
      fun d hd => htag d (List.mem_of_mem_take hd)
    have htd : ∀ d ∈ List.drop (array.length / 2) array, ∀ v,
        docGet d param = some v → Value.tag v = tg :=
      fun d hd => htag d (List.mem_of_mem_drop hd)
    obtain ⟨outl, hol, pl, sl, fl⟩ := IHl hkt htt
    obtain ⟨outr, hor, pr, sr, fr⟩ := IHr hkd htd
    have hel : outl = l := by rw [hol] at hl; exact Except.ok.inj hl
    have her : outr = r := by rw [hor] at hr; exact Except.ok.inj hr
    subst hel
    subst her
    have hkl : ∀ d ∈ outl, (docGet d param).isSome := fun d hd => hkt d (pl.mem_iff.mp hd)
    have hkr : ∀ d ∈ outr, (docGet d param).isSome := fun d hd => hkd d (pr.mem_iff.mp hd)
    have htl2 : ∀ d ∈ outl, ∀ v, docGet d param = some v → Value.tag v = tg :=
      fun d hd => htt d (pl.mem_iff.mp hd)
    have htr2 : ∀ d ∈ outr, ∀ v, docGet d param = some v → Value.tag v = tg :=
      fun d hd => htd d (pr.mem_iff.mp hd)
    obtain ⟨out, hm⟩ := merge_all_ok hkl hkr htl2 htr2
    refine ⟨out, (merge_sort_eq_merge hlen hol hor).trans hm, ?_,
      merge_ok_sorted hm sl sr, ?_⟩
    · refine (merge_ok_perm hm).trans ((pl.append pr).trans ?_)
      rw [List.take_append_drop]
    · intro v
      rw [merge_ok_filter hm sl, fl v, fr v, ← List.filter_append, List.take_append_drop]
  | case3 array param hlen e herr IHl IHr =>
    intro hkeys htag
    have hkt : ∀ d ∈ List.take (array.length / 2) array, (docGet d param).isSome :=
      fun d hd => hkeys d (List.mem_of_mem_take hd)
    have htt : ∀ d ∈ List.take (array.length / 2) array, ∀ v,
        docGet d param = some v → Value.tag v = tg :=
      fun d hd => htag d (List.mem_of_mem_take hd)
    obtain ⟨outl, hol, _⟩ := IHl hkt htt
    rw [hol] at herr
    exact (Except.noConfusion herr)
  | case4 array param hlen a e herr hok IHl IHr =>
    intro hkeys htag
    have hkd : ∀ d ∈ List.drop (array.length / 2) array, (docGet d param).isSome :=
      fun d hd => hkeys d (List.mem_of_mem_drop hd)
    have htd : ∀ d ∈ List.drop (array.length / 2) array, ∀ v,
        docGet d param = some v → Value.tag v = tg :=
      fun d hd => htag d (List.mem_of_mem_drop hd)
    obtain ⟨outr, hor, _⟩ := IHr hkd htd
    rw [hor] at herr
    exact (Except.noConfusion herr)


theorem merge_singleton_left_missing {d : Doc} {right : List Doc} {param : String}
    (hd : docGet d param = none) (hne : right ≠ []) :
    merge [d] right param = .error .missingSortKey := by
  rcases right with _ | ⟨b, r⟩
  · exact absurd rfl hne
  · rw [merge]
    simp [hd]

theorem merge_singleton_right_missing {left : List Doc} {d : Doc} {param : String}
    (hd : docGet d param = none) (hne : left ≠ []) :
    merge left [d] param = .error .missingSortKey := by
  rcases left with _ | ⟨a, l⟩
  · exact absurd rfl hne
  · rw [merge]
    rcases h1 : docGet a param with _ | av <;> simp [h1, hd]

theorem merge_sort_missing : ∀ {array : List Doc} {param : String} {tg : Bool},
    2 ≤ array.length →
    (∀ d ∈ array, ∀ v, docGet d param = some v → Value.tag v = tg) →
    (∃ d ∈ array, docGet d param = none) →
    merge_sort array param = .error .missingSortKey := by
  intro array param tg
  induction array, param using merge_sort.induct with
  | case1 array param hlen =>
    intro h2 _ _
    omega
  | case2 array param hlen l r hr hl IHl IHr =>
    rintro h2 ht ⟨d, hdmem, hdnone⟩
    have hlt : (List.take (array.length / 2) array).length = array.length / 2 := by
      simp [List.length_take]
      omega
    have hld : (List.drop (array.length / 2) array).length =
        array.length - array.length / 2 := by
      simp [List.length_drop]
    have htt : ∀ d2 ∈ List.take (array.length / 2) array, ∀ v,
        docGet d2 param = some v → Value.tag v = tg :=
      fun d2 hd => ht d2 (List.mem_of_mem_take hd)
    have htd : ∀ d2 ∈ List.drop (array.length / 2) array, ∀ v,
        docGet d2 param = some v → Value.tag v = tg :=
      fun d2 hd => ht d2 (List.mem_of_mem_drop hd)
    have hdm : d ∈ List.take (array.length / 2) array ∨
        d ∈ List.drop (array.length / 2) array := by
      rw [← List.take_append_drop (array.length / 2) array] at hdmem
      exact List.mem_append.mp hdmem
    rcases hdm with hdt | hdd
    · by_cases h2t : 2 ≤ (List.take (array.length / 2) array).length
      · have hbad := IHl h2t htt ⟨d, hdt, hdnone⟩
        rw [hbad] at hl
        exact (Except.noConfusion hl)
      · have h1t : (List.take (array.length / 2) array).length = 1 := by omega
        obtain ⟨x, hx⟩ := List.length_eq_one.mp h1t
        have hdx : d = x := by
          rw [hx] at hdt
          simpa using hdt
        subst hdx
        have hlx : l = [d] := by
          rw [hx, merge_sort_eq_small (by simp)] at hl
          exact (Except.ok.inj hl).symm
        have hrne : r ≠ [] := by
          intro h0
          have := (merge_sort_ok_perm hr).length_eq
          rw [h0, hld] at this
          simp at this
          omega
        rw [merge_sort_eq_merge hlen hl hr, hlx]
        exact merge_singleton_left_missing hdnone hrne
    · by_cases h2d : 2 ≤ (List.drop (array.length / 2) array).length
      · have hbad := IHr h2d htd ⟨d, hdd, hdnone⟩
        rw [hbad] at hr
        exact (Except.noConfusion hr)
      · have h1d : (List.drop (array.length / 2) array).length = 1 := by omega
        obtain ⟨x, hx⟩ := List.length_eq_one.mp h1d
        have hdx : d = x := by
          rw [hx] at hdd
          simpa using hdd
        subst hdx
        have hrx : r = [d] := by
          rw [hx, merge_sort_eq_small (by simp)] at hr
          exact (Except.ok.inj hr).symm
        have hlne : l ≠ [] := by
          intro h0
          have := (merge_sort_ok_perm hl).length_eq
          rw [h0, hlt] at this
          simp at this
          omega
        rw [merge_sort_eq_merge hlen hl hr, hrx]
        exact merge_singleton_right_missing hdnone hlne
  | case3 array param hlen e herr IHl IHr =>
    rintro h2 ht ⟨d, hdmem, hdnone⟩
    have he := merge_sort_error_eq (fun d2 hd => ht d2 (List.mem_of_mem_take hd)) herr
    subst he
    exact merge_sort_eq_error_left hlen herr
  | case4 array param hlen a e herr hok IHl IHr =>
    rintro h2 ht ⟨d, hdmem, hdnone⟩
    have he := merge_sort_error_eq (fun d2 hd => ht d2 (List.mem_of_mem_drop hd)) herr
    subst he
    exact merge_sort_eq_error_right hlen hok herr

theorem tagHomog_of_all {arr : List Doc} {param : String} {tg : Bool}
    (h : arr.all (fun d => ((docGet d param).map Value.tag).getD tg == tg) = true) :
    ∀ d ∈ arr, ∀ v, docGet d param = some v → Value.tag v = tg := by
  intro d hd v hv
  have h2 := List.all_eq_true.mp h d hd
  rw [hv] at h2
  simpa using h2

/-- C4 counterexample: the one-document sequence `[{}]`, whose only
document lacks the sort key "k", is returned unchanged by
`merge_sort` — no `MissingSortKey` is raised, contradicting the claim
that the sort fails whenever at least one document lacks the key. -/
theorem merge_sort_singleton_missing_no_error :
    merge_sort [([] : Doc)] "k" = .ok [([] : Doc)] ∧ docGet ([] : Doc) "k" = none :=
  ⟨merge_sort_eq_small (by simp), rfl⟩

/-- C4 (amended): `sort(sequence, key)` fails with `MissingSortKey`
whenever the sequence has at least two documents, at least one of them
lacks the field `key`, and the key values that are present all have one
runtime type (cross-type comparisons raise `TypeError` instead, which
`merge`'s `except KeyError` does not catch); a sequence of fewer than two
documents is returned unchanged without any error, even when its document
lacks the key. -/
theorem merge_sort_missing_key_behavior :
    (∀ (array : List Doc) (param : String) (tg : Bool), 2 ≤ array.length →
      (∀ d ∈ array, ∀ v, docGet d param = some v → Value.tag v = tg) →
      (∃ d ∈ array, docGet d param = none) →
      merge_sort array param = .error .missingSortKey) ∧
    (∀ (array : List Doc) (param : String), array.length < 2 →
      merge_sort array param = .ok array) :=
  ⟨fun _ _ _ h2 ht hm => merge_sort_missing h2 ht hm, fun _ _ h => merge_sort_eq_small h⟩

/-- Witness for C4's amended theorem at concrete inputs: a two-document
sequence with one document lacking the (integer-valued) key errors, and a
one-document sequence lacking the key is returned unchanged. -/
theorem merge_sort_missing_key_behavior_witness :
    merge_sort [[("a", Value.vInt 1)], ([] : Doc)] "a" = .error .missingSortKey ∧
    merge_sort [([("b", Value.vInt 2)] : Doc)] "a" =
      .ok [([("b", Value.vInt 2)] : Doc)] :=
  ⟨merge_sort_missing_key_behavior.1 _ _ true (by simp) (tagHomog_of_all (by decide))
      ⟨[], by simp, rfl⟩,
   merge_sort_missing_key_behavior.2 _ _ (by simp)⟩

/-- C5 counterexample: on `[{k:1}, {k:"a"}]` — every document has the
field `k`, but with mixed-type values — the sort does not return a
permutation at all: the comparison `1 <= "a"` raises `TypeError`. -/
theorem merge_sort_mixed_types_raises :
    merge_sort [[("k", Value.vInt 1)], [("k", Value.vStr "a")]] "k" =
      .error .typeError ∧
    ∀ d ∈ [[("k", Value.vInt 1)], [("k", Value.vStr "a")]],
      (docGet d "k").isSome := by
  constructor
  · set_option maxRecDepth 4000 in
    simp +decide [merge_sort, merge, docGet, Value.ble]
  · decide

/-- C5 (amended): on a sequence in which every document has the field
`param` and the key values all have one runtime type (Python comparisons
across types raise `TypeError`), `merge_sort` succeeds and returns a
permutation of the sequence that is ordered ascending by
`document[param]` and is stable: for every key value `v`, the subsequence
of documents whose key equals `v` is exactly the same (same documents,
same relative order) as in the input. -/
theorem merge_sort_stable_sort (array : List Doc) (param : String) (tg : Bool)
    (hkeys : ∀ d ∈ array, (docGet d param).isSome)
    (htag : ∀ d ∈ array, ∀ v, docGet d param = some v → Value.tag v = tg) :
    ∃ out, merge_sort array param = .ok out ∧ out.Perm array ∧
      out.Pairwise (keyLeB param) ∧
      ∀ v, out.filter (fun d => decide (docGet d param = some v)) =
        array.filter (fun d => decide (docGet d param = some v)) :=
  merge_sort_spec array param tg hkeys htag

/-- Witness for C5 at the spec's stability example
`[{k:1, id:"a"}, {k:1, id:"b"}]`. -/
theorem merge_sort_stable_sort_witness :
    ∃ out, merge_sort [[("k", Value.vInt 1), ("id", Value.vStr "a")],
        [("k", Value.vInt 1), ("id", Value.vStr "b")]] "k" = .ok out ∧
      out.Perm [[("k", Value.vInt 1), ("id", Value.vStr "a")],
        [("k", Value.vInt 1), ("id", Value.vStr "b")]] ∧
      out.Pairwise (keyLeB "k") ∧
      ∀ v, out.filter (fun d => decide (docGet d "k" = some v)) =
        [[("k", Value.vInt 1), ("id", Value.vStr "a")],
          [("k", Value.vInt 1), ("id", Value.vStr "b")]].filter
            (fun d => decide (docGet d "k" = some v)) :=
  merge_sort_stable_sort _ "k" true (by decide) (tagHomog_of_all (by decide))

/-- C1 (code bug): inserting the document `{k: 5}` into an empty group
succeeds, yet `findOne({k: 5})` — a single plain-equality query on a field
present in the document — returns no document at all: the fast path's
binary search brackets with `u = len - 1` and loops only `while l < u`, so
it never examines the final bracket position and misses the match.  The
claimed round trip fails. -/
theorem insert_then_findOne_misses :
    (group.insert ⟨[], none⟩ [("k", Value.vInt 5)]).2 = .ok true ∧
    docGet [("k", Value.vInt 5)] "k" = some (Value.vInt 5) ∧
    group.get_one (group.insert ⟨[], none⟩ [("k", Value.vInt 5)]).1
      [("k", FilterSpec.plain (Value.vInt 5))] none = .ok none := by
  refine ⟨rfl, rfl, ?_⟩
  simp +decide [group.get_one, docsOf, group.insert, get_one, merge_sort,
    binary_search, bsLoop]

/-- C2 (code bug): on the sequence `[{k:1}, {k:5}]` (already sorted by
`k`, no duplicate keys) with the single plain-equality filter `{k: 5}`,
the fast path (sort then binary search) reports no match while the
general linear scan finds `{k:5}` — the two paths disagree on whether a
match exists, not merely on which duplicate is returned. -/
theorem fast_path_disagrees_with_linear_scan :
    get_one [[("k", Value.vInt 1)], [("k", Value.vInt 5)]]
      [("k", FilterSpec.plain (Value.vInt 5))] none = .ok none ∧
    findFirst [[("k", Value.vInt 1)], [("k", Value.vInt 5)]]
      [("k", FilterSpec.plain (Value.vInt 5))] =
      .ok (some [("k", Value.vInt 5)]) := by
  constructor
  · simp +decide [get_one, merge_sort, merge, binary_search, bsLoop, docGet, Value.blt, Value.ble]
  · rfl

/-- C3 counterexample: `findOne({a: 1})` on the group `[{a:1}, {b:2}]`
raises `MissingSortKey` instead of completing: the single plain-equality
filter triggers the fast path, which sorts by the filter field `a`, and
the document `{b:2}` lacks that field.  The query does not treat the
missing field as a non-match; it errors. -/
theorem findOne_missing_filter_field_raises :
    group.get_one ⟨[[("a", Value.vInt 1)], [("b", Value.vInt 2)]], none⟩
      [("a", FilterSpec.plain (Value.vInt 1))] none = .error .missingSortKey := by
  simp +decide [group.get_one, docsOf, get_one, merge_sort, merge, docGet]

theorem matchDoc_total {d : Doc} {filters : List (String × FilterSpec)}
    (htot : ∀ p ∈ filters, SpecTotal p.2) : ∃ b, matchDoc d filters = .ok b := by
  induction filters with
  | nil => exact ⟨true, rfl⟩
  | cons p rest IH =>
    obtain ⟨f, spec⟩ := p
    rcases hg : docGet d f with _ | v
    · exact ⟨false, by simp [matchDoc, hg]⟩
    · obtain ⟨b, hb⟩ := htot (f, spec) (by simp) v
      rcases b
      · exact ⟨false, by simp [matchDoc, hg, hb]⟩
      · obtain ⟨b2, hb2⟩ := IH (fun q hq => htot q (List.mem_cons_of_mem _ hq))
        exact ⟨b2, by simp [matchDoc, hg, hb, hb2]⟩

theorem matchDoc_missing {d : Doc} {filters : List (String × FilterSpec)}
    {f : String} {spec : FilterSpec}
    (htot : ∀ p ∈ filters, SpecTotal p.2)
    (hmem : (f, spec) ∈ filters) (hnone : docGet d f = none) :
    matchDoc d filters = .ok false := by
  induction filters with
  | nil => simp at hmem
  | cons p rest IH =>
    obtain ⟨f1, s1⟩ := p
    rcases hg : docGet d f1 with _ | v
    · simp [matchDoc, hg]
    · obtain ⟨b, hb⟩ := htot (f1, s1) (by simp) v
      have hrest : (f, spec) ∈ rest := by
        rcases List.mem_cons.mp hmem with heq | hmem2
        · exfalso
          rw [Prod.mk.injEq] at heq
          rw [heq.1] at hnone
          rw [hnone] at hg
          exact Option.noConfusion hg
        · exact hmem2
      rcases b
      · simp [matchDoc, hg, hb]
      · simp only [matchDoc, hg, hb]
        exact IH (fun q hq => htot q (List.mem_cons_of_mem _ hq)) hrest

theorem matchDoc_true_fields {d : Doc} {filters : List (String × FilterSpec)}
    (h : matchDoc d filters = .ok true) :
    ∀ p ∈ filters, ∃ v, docGet d p.1 = some v ∧ matchDocs v p.2 = .ok true := by
  induction filters with
  | nil => intro p hp; simp at hp
  | cons q rest IH =>
    obtain ⟨f1, s1⟩ := q
    rcases hg : docGet d f1 with _ | v
    · simp [matchDoc, hg] at h
    · rcases hm : matchDocs v s1 with e | b
      · simp [matchDoc, hg, hm] at h
      · rcases b
        · simp [matchDoc, hg, hm] at h
        · intro p hp
          rcases List.mem_cons.mp hp with rfl | hp2
          · exact ⟨v, hg, hm⟩
          · have h2 : matchDoc d rest = .ok true := by
              simpa [matchDoc, hg, hm] using h
            exact IH h2 p hp2

theorem findFirst_ok_some {docs : List Doc} {filters : List (String × FilterSpec)}
    {d : Doc} (h : findFirst docs filters = .ok (some d)) :
    d ∈ docs ∧ matchDoc d filters = .ok true := by
  induction docs with
  | nil => simp [findFirst] at h
  | cons x rest IH =>
    rcases hm : matchDoc x filters with e | b
    · simp [findFirst, hm] at h
    · rcases b
      · simp only [findFirst, hm] at h
        obtain ⟨h1, h2⟩ := IH h
        exact ⟨List.mem_cons_of_mem _ h1, h2⟩
      · simp [findFirst, hm] at h
        subst h
        exact ⟨List.mem_cons_self x rest, hm⟩

theorem findFirst_none_of_false {docs : List Doc} {filters : List (String × FilterSpec)}
    (h : ∀ d ∈ docs, matchDoc d filters = .ok false) :
    findFirst docs filters = .ok none := by
  induction docs with
  | nil => rfl
  | cons x rest IH =>
    have hx := h x (by simp)
    simp only [findFirst, hx]
    exact IH (fun d hd => h d (List.mem_cons_of_mem _ hd))

theorem findFirst_total {docs : List Doc} {filters : List (String × FilterSpec)}
    (hall : ∀ d ∈ docs, ∃ b, matchDoc d filters = .ok b) :
    ∃ res, findFirst docs filters = .ok res := by
  induction docs with
  | nil => exact ⟨none, rfl⟩
  | cons x rest IH =>
    obtain ⟨b, hb⟩ := hall x (by simp)
    rcases b
    · obtain ⟨res, hres⟩ := IH (fun d hd => hall d (List.mem_cons_of_mem _ hd))
      exact ⟨res, by simp [findFirst, hb, hres]⟩
    · exact ⟨some x, by simp [findFirst, hb]⟩

theorem filterDocs_ok_of_total {docs : List Doc} {filters : List (String × FilterSpec)}
    (hall : ∀ d ∈ docs, ∃ b, matchDoc d filters = .ok b) :
    filterDocs docs filters = .ok (docs.filter (fun d => matchB d filters)) := by
  induction docs with
  | nil => rfl
  | cons x rest IH =>
    obtain ⟨b, hb⟩ := hall x (by simp)
    have IH2 := IH (fun d hd => hall d (List.mem_cons_of_mem _ hd))
    rcases b
    · simp [filterDocs, hb, List.filter_cons, matchB, IH2]
    · simp [filterDocs, hb, List.filter_cons, matchB, IH2]

theorem filterDocs_ok_inv {docs : List Doc} {filters : List (String × FilterSpec)}
    {out : List Doc} (h : filterDocs docs filters = .ok out) :
    (∀ d ∈ docs, ∃ b, matchDoc d filters = .ok b) ∧
      out = docs.filter (fun d => matchB d filters) := by
  induction docs generalizing out with
  | nil =>
    simp [filterDocs] at h
    subst h
    exact ⟨by simp, by simp⟩
  | cons x rest IH =>
    rcases hm : matchDoc x filters with e | b
    · simp [filterDocs, hm] at h
    · rcases b
      · simp only [filterDocs, hm] at h
        obtain ⟨hall, heq⟩ := IH h
        refine ⟨?_, ?_⟩
        · intro d hd
          rcases List.mem_cons.mp hd with rfl | hd2
          · exact ⟨false, hm⟩
          · exact hall d hd2
        · rw [heq, List.filter_cons]
          simp [matchB, hm]
      · rcases hr : filterDocs rest filters with e | out2
        · simp [filterDocs, hm, hr] at h
        · simp only [filterDocs, hm, hr] at h
          injection h with h2
          subst h2
          obtain ⟨hall, heq⟩ := IH hr
          refine ⟨?_, ?_⟩
          · intro d hd
            rcases List.mem_cons.mp hd with rfl | hd2
            · exact ⟨true, hm⟩
            · exact hall d hd2
          · rw [heq, List.filter_cons]
            simp [matchB, hm]

theorem getAll_none_eq (docs : List Doc) (filters : List (String × FilterSpec)) :
    getAll docs filters none = filterDocs docs filters := by
  rcases h : filterDocs docs filters with e | out <;> simp [getAll, h]

theorem get_one_fast_eq (docs : List Doc) (key : String) (value : Value) :
    get_one docs [(key, .plain value)] none =
      match merge_sort docs key with
      | .error e => .error e
      | .ok sorted => binary_search sorted key value := rfl

theorem get_one_general_eq {filters : List (String × FilterSpec)}
    (h : isFastShape filters = false) (docs : List Doc) :
    get_one docs filters none = findFirst docs filters := by
  rcases filters with _ | ⟨⟨f, spec⟩, rest⟩
  · rfl
  · rcases rest with _ | ⟨q, rest2⟩
    · rcases spec with v | l
      · simp [isFastShape] at h
      · rfl
    · rcases spec with v | l <;> rfl

theorem isFastShape_true {filters : List (String × FilterSpec)}
    (h : isFastShape filters = true) :
    ∃ key value, filters = [(key, .plain value)] := by
  rcases filters with _ | ⟨⟨f, spec⟩, rest⟩
  · simp [isFastShape] at h
  · rcases rest with _ | ⟨q, rest2⟩
    · rcases spec with v | l
      · exact ⟨f, v, rfl⟩
      · simp [isFastShape] at h
    · simp [isFastShape] at h

theorem bsLoop_ok_some {arr : List Doc} {key : String} {value : Value}
    {l u : Nat} {d : Doc} (h : bsLoop arr key value l u = .ok (some d)) :
    d ∈ arr ∧ docGet d key = some value := by
  induction l, u using bsLoop.induct arr key value with
  | case1 l u hlt mid hget =>
    have hget2 : arr.get? ((l + u) / 2) = none := hget
    rw [bsLoop] at h
    simp only [if_pos hlt, hget2] at h
    exact Except.noConfusion h
  | case2 l u hlt mid d0 hget hkey =>
    have hget2 : arr.get? ((l + u) / 2) = some d0 := hget
    rw [bsLoop] at h
    simp only [if_pos hlt, hget2, hkey] at h
    exact Except.noConfusion h
  | case3 l u hlt mid d0 hget hkey =>
    have hget2 : arr.get? ((l + u) / 2) = some d0 := hget
    rw [bsLoop] at h
    simp only [if_pos hlt, hget2, hkey, if_pos rfl] at h
    injection h with h
    injection h with h
    subst h
    exact ⟨List.get?_mem hget2, hkey⟩
  | case4 l u hlt mid d0 hget v hkey hne hblt =>
    have hget2 : arr.get? ((l + u) / 2) = some d0 := hget
    rw [bsLoop] at h
    simp only [if_pos hlt, hget2, hkey, if_neg hne, hblt] at h
    exact Except.noConfusion h
  | case5 l u hlt mid d0 hget v hkey hne hblt IH =>
    have hget2 : arr.get? ((l + u) / 2) = some d0 := hget
    have IH2 : bsLoop arr key value ((l + u) / 2 + 1) u = .ok (some d) →
        d ∈ arr ∧ docGet d key = some value := IH
    rw [bsLoop] at h
    simp only [if_pos hlt, hget2, hkey, if_neg hne, hblt] at h
    exact IH2 h
  | case6 l u hlt mid d0 hget v hkey hne hblt IH =>
    have hget2 : arr.get? ((l + u) / 2) = some d0 := hget
    have IH2 : bsLoop arr key value l ((l + u) / 2) = .ok (some d) →
        d ∈ arr ∧ docGet d key = some value := IH
    rw [bsLoop] at h
    simp only [if_pos hlt, hget2, hkey, if_neg hne, hblt] at h
    exact IH2 h
  | case7 l u hlt =>
    rw [bsLoop] at h
    simp only [if_neg hlt] at h
    simp at h

theorem get_one_no_match {docs : List Doc} {filters : List (String × FilterSpec)}
    (hnm : ∀ d ∈ docs, matchDoc d filters = .ok false) :
    get_one docs filters none = .ok none ∨ ∃ e, get_one docs filters none = .error e := by
  rcases hfast : isFastShape filters with _ | _
  · rw [get_one_general_eq hfast]
    exact Or.inl (findFirst_none_of_false hnm)
  · obtain ⟨key, value, rfl⟩ := isFastShape_true hfast
    rw [get_one_fast_eq]
    rcases hs : merge_sort docs key with e | sorted
    · exact Or.inr ⟨e, rfl⟩
    · rcases hb : binary_search sorted key value with e | od
      · exact Or.inr ⟨e, hb⟩
      · rcases od with _ | d
        · exact Or.inl hb
        · exfalso
          obtain ⟨hmem, hkey⟩ := bsLoop_ok_some hb
          have hd : d ∈ docs := (merge_sort_ok_perm hs).mem_iff.mp hmem
          have hfalse := hnm d hd
          simp [matchDoc, hkey, matchDocs] at hfalse

/-- C3 (amended): a document lacking a field named in the filters is a
non-match and the query completes without error for `findAll` and for
`findOne` on its general path (the filter specs themselves being
well-formed); but `findOne` with a single plain-equality filter and no
`sortby` sorts the whole sequence by the filter field, so on a sequence of
at least two documents whose present key values are of one runtime type it
fails with `MissingSortKey` whenever any document lacks that field — there
the filter field is the sort key (with mixed int/str key values the sort's
comparison itself raises a `TypeError` instead). -/
theorem missing_field_filter_behavior :
    (∀ (st : GroupState) (filters : List (String × FilterSpec)),
      (∀ p ∈ filters, SpecTotal p.2) →
      ∃ out, group.get st filters none = .ok out ∧
        ∀ d ∈ docsOf st, (∃ p ∈ filters, docGet d p.1 = none) → d ∉ out) ∧
    (∀ (st : GroupState) (filters : List (String × FilterSpec)),
      (∀ p ∈ filters, SpecTotal p.2) → isFastShape filters = false →
      ∃ res, group.get_one st filters none = .ok res ∧
        ∀ d ∈ docsOf st, (∃ p ∈ filters, docGet d p.1 = none) → res ≠ some d) ∧
    (∀ (st : GroupState) (key : String) (value : Value) (tg : Bool),
      2 ≤ (docsOf st).length →
      (∀ d ∈ docsOf st, ∀ v, docGet d key = some v → Value.tag v = tg) →
      (∃ d ∈ docsOf st, docGet d key = none) →
      group.get_one st [(key, .plain value)] none = .error .missingSortKey) := by
  refine ⟨?_, ?_, ?_⟩
  · intro st filters htot
    have hall : ∀ d ∈ docsOf st, ∃ b, matchDoc d filters = .ok b :=
      fun d _ => matchDoc_total htot
    refine ⟨(docsOf st).filter (fun d => matchB d filters), ?_, ?_⟩
    · rw [group.get, getAll_none_eq]
      exact filterDocs_ok_of_total hall
    · rintro d hd ⟨p, hp, hnone⟩ hmem
      have hfalse : matchDoc d filters = .ok false :=
        matchDoc_missing htot (by simpa using hp) hnone
      have hfil := (List.mem_filter.mp hmem).2
      simp [matchB, hfalse] at hfil
  · intro st filters htot hshape
    have hall : ∀ d ∈ docsOf st, ∃ b, matchDoc d filters = .ok b :=
      fun d _ => matchDoc_total htot
    obtain ⟨res, hres⟩ := findFirst_total hall
    refine ⟨res, ?_, ?_⟩
    · rw [group.get_one, get_one_general_eq hshape]
      exact hres
    · rintro d hd ⟨p, hp, hnone⟩ heq
      subst heq
      have htrue := (findFirst_ok_some hres).2
      have hfalse : matchDoc d filters = .ok false :=
        matchDoc_missing htot (by simpa using hp) hnone
      rw [htrue] at hfalse
      simp at hfalse
  · intro st key value tg h2 htag hmiss
    rw [group.get_one, get_one_fast_eq, merge_sort_missing h2 htag hmiss]

/-- Witness for C3's amended theorem: `findAll({c: 3})` on
`[{a:1}, {b:2}]` returns the empty list without error although both
documents lack `c`; `findOne` with two filters (general path) on the same
group completes with no match; and `findOne({a: 1})` (fast path) on the
same group fails with `MissingSortKey` because `{b:2}` lacks `a`. -/
theorem missing_field_filter_behavior_witness :
    (∃ out, group.get ⟨[[("a", Value.vInt 1)], [("b", Value.vInt 2)]], none⟩
        [("c", FilterSpec.plain (Value.vInt 3))] none = .ok out ∧
      ∀ d ∈ docsOf ⟨[[("a", Value.vInt 1)], [("b", Value.vInt 2)]], none⟩,
        (∃ p ∈ [("c", FilterSpec.plain (Value.vInt 3))], docGet d p.1 = none) →
          d ∉ out) ∧
    (∃ res, group.get_one ⟨[[("a", Value.vInt 1)], [("b", Value.vInt 2)]], none⟩
        [("a", FilterSpec.plain (Value.vInt 1)),
          ("c", FilterSpec.plain (Value.vInt 3))] none = .ok res ∧
      ∀ d ∈ docsOf ⟨[[("a", Value.vInt 1)], [("b", Value.vInt 2)]], none⟩,
        (∃ p ∈ [("a", FilterSpec.plain (Value.vInt 1)),
          ("c", FilterSpec.plain (Value.vInt 3))], docGet d p.1 = none) →
          res ≠ some d) ∧
    group.get_one ⟨[[("a", Value.vInt 1)], [("b", Value.vInt 2)]], none⟩
      [("a", FilterSpec.plain (Value.vInt 1))] none = .error .missingSortKey := by
  refine ⟨missing_field_filter_behavior.1 _ _ ?_,
    missing_field_filter_behavior.2.1 _ _ ?_ (by decide),
    missing_field_filter_behavior.2.2 _ "a" (Value.vInt 1) true (by decide)
      (tagHomog_of_all (by decide))
      ⟨[("b", Value.vInt 2)], by decide, by decide⟩⟩
  · rintro p hp
    have hp2 : p = ("c", FilterSpec.plain (Value.vInt 3)) := by simpa using hp
    subst hp2
    intro v
    exact ⟨_, rfl⟩
  · rintro p hp
    rcases (by simpa using hp :
        p = ("a", FilterSpec.plain (Value.vInt 1)) ∨
        p = ("c", FilterSpec.plain (Value.vInt 3))) with hp2 | hp2 <;>
      · subst hp2
        intro v
        exact ⟨_, rfl⟩

/-- C6: the operator table of `matchDocs`: a plain spec is an equality
check; `{__gt: w}` returns exactly the strict comparison `w < v` whenever
the two values share a runtime type (31 > 30 matches, 30 does not), and
raises a `TypeError` when they do not; `{__re: p}` with a pattern the
regex model accepts matches exactly the values whose string form the
pattern matches ("^A" matches "Alice", not "bob"); an unknown operator
tag fails with `InvalidFilterError`. -/
theorem matchDocs_operator_table :
    (∀ v w : Value, matchDocs v (.plain w) = .ok (decide (v = w))) ∧
    (∀ (v w : Value) (b : Bool), Value.blt w v = some b →
      matchDocs v (.ops [("__gt", w)]) = .ok b) ∧
    (∀ v w : Value, Value.blt w v = none →
      matchDocs v (.ops [("__gt", w)]) = .error .typeError) ∧
    (matchDocs (.vInt 31) (.ops [("__gt", .vInt 30)]) = .ok true ∧
      matchDocs (.vInt 30) (.ops [("__gt", .vInt 30)]) = .ok false) ∧
    (∀ (v : Value) (p : String) (b : Bool), reMatch p (Value.str v) = some b →
      matchDocs v (.ops [("__re", .vStr p)]) = .ok b) ∧
    (matchDocs (.vStr "Alice") (.ops [("__re", .vStr "^A")]) = .ok true ∧
      matchDocs (.vStr "bob") (.ops [("__re", .vStr "^A")]) = .ok false) ∧
    (∀ (v operand : Value) (tag : String),
      tag ∉ ["__ne", "__gt", "__lt", "__lte", "__gte", "__re", "__cf"] →
      matchDocs v (.ops [(tag, operand)]) = .error .invalidFilter) := by
  refine ⟨?_, ?_, ?_, ⟨rfl, rfl⟩, ?_, ⟨rfl, rfl⟩, ?_⟩
  · intro v w
    simp [matchDocs, eq_comm]
  · intro v w b hb
    rw [Value.blt_eq_not_ble] at hb
    rcases hble : Value.ble v w with _ | bb
    · rw [hble] at hb
      exact Option.noConfusion hb
    · rw [hble] at hb
      have hb2 : b = !bb := by simpa using hb.symm
      subst hb2
      rcases bb <;> simp [matchDocs, matchOps, hble]
  · intro v w hb
    rw [Value.blt_eq_not_ble] at hb
    rcases hble : Value.ble v w with _ | bb
    · simp [matchDocs, matchOps, hble]
    · rw [hble] at hb
      exact Option.noConfusion hb
  · intro v p b h
    rcases b <;> simp [matchDocs, matchOps, h]
  · intro v operand tag htag
    simp only [List.mem_cons, List.not_mem_nil, or_false, not_or] at htag
    obtain ⟨h1, h2, h3, h4, h5, h6, h7⟩ := htag
    simp [matchDocs, matchOps, h1, h2, h3, h4, h5, h6, h7]

/-- Witness for C6 at concrete inputs: equality on 3 = 3, strict
greater-than on 7 > 5, the cross-type comparison "x" vs 5, the regex
example "^A" against "Alice", and the unknown tag "__eq". -/
theorem matchDocs_operator_table_witness :
    matchDocs (.vInt 3) (.plain (.vInt 3)) = .ok (decide ((Value.vInt 3) = .vInt 3)) ∧
    (Value.blt (Value.vInt 5) (.vInt 7) = some true ∧
      matchDocs (.vInt 7) (.ops [("__gt", .vInt 5)]) = .ok true) ∧
    (Value.blt (Value.vInt 5) (.vStr "x") = none ∧
      matchDocs (.vStr "x") (.ops [("__gt", .vInt 5)]) = .error .typeError) ∧
    matchDocs (.vInt 31) (.ops [("__gt", .vInt 30)]) = .ok true ∧
    (reMatch "^A" (Value.str (.vStr "Alice")) = some true ∧
      matchDocs (.vStr "Alice") (.ops [("__re", .vStr "^A")]) = .ok true) ∧
    matchDocs (.vInt 0) (.ops [("__eq", .vInt 0)]) = .error .invalidFilter :=
  ⟨matchDocs_operator_table.1 _ _,
    ⟨rfl, matchDocs_operator_table.2.1 _ _ _ rfl⟩,
    ⟨rfl, matchDocs_operator_table.2.2.1 _ _ rfl⟩,
    matchDocs_operator_table.2.2.2.1.1,
    ⟨rfl, matchDocs_operator_table.2.2.2.2.1 _ _ _ rfl⟩,
    matchDocs_operator_table.2.2.2.2.2.2 _ _ "__eq" (by decide)⟩

theorem docGet_append_some {l1 : Doc} (l2 : Doc) {k : String} {v : Value}
    (h : docGet l1 k = some v) : docGet (l1 ++ l2) k = some v := by
  induction l1 with
  | nil => simp [docGet] at h
  | cons p rest IH =>
    obtain ⟨k1, v1⟩ := p
    by_cases hk : k1 = k
    · subst hk
      simp [docGet] at h ⊢
      exact h
    · simp [docGet, hk] at h ⊢
      exact IH h

theorem docGet_append_none {l1 : Doc} (l2 : Doc) {k : String}
    (h : docGet l1 k = none) : docGet (l1 ++ l2) k = docGet l2 k := by
  induction l1 with
  | nil => rfl
  | cons p rest IH =>
    obtain ⟨k1, v1⟩ := p
    by_cases hk : k1 = k
    · subst hk
      simp [docGet] at h
    · simp [docGet, hk] at h ⊢
      exact IH h

theorem docGet_docSet_self (d : Doc) (k : String) (v : Value) :
    docGet (docSet d k v) k = some v := by
  induction d with
  | nil => simp [docSet, docGet]
  | cons p rest IH =>
    obtain ⟨k1, v1⟩ := p
    by_cases hk : k1 = k
    · subst hk
      simp [docSet, docGet]
    · simp [docSet, docGet, hk, IH]

theorem docGet_docSet_other (d : Doc) {k k' : String} (v : Value) (hne : k' ≠ k) :
    docGet (docSet d k v) k' = docGet d k' := by
  induction d with
  | nil =>
    simp [docSet, docGet, Ne.symm hne]
  | cons p rest IH =>
    obtain ⟨k1, v1⟩ := p
    by_cases hk : k1 = k
    · subst hk
      simp [docSet, docGet, Ne.symm hne]
    · by_cases hk2 : k1 = k'
      · subst hk2
        simp [docSet, docGet, hk]
      · simp [docSet, docGet, hk, hk2, IH]

theorem docGet_none_of_not_mem {l : Doc} {k : String}
    (h : k ∉ l.map Prod.fst) : docGet l k = none := by
  induction l with
  | nil => rfl
  | cons p rest IH =>
    obtain ⟨k1, v1⟩ := p
    simp only [List.map_cons, List.mem_cons, not_or] at h
    have hk : k1 ≠ k := fun hh => h.1 hh.symm
    simp [docGet, hk]
    exact IH h.2

theorem docGet_docUpdate {nv : Doc} {d : Doc} {f : String}
    (hnd : (nv.map Prod.fst).Nodup) :
    docGet (docUpdate d nv) f =
      match docGet nv f with
      | some w => some w
      | none => docGet d f := by
  induction nv generalizing d with
  | nil => simp [docUpdate, docGet]
  | cons p rest IH =>
    obtain ⟨k, v⟩ := p
    simp only [List.map_cons, List.nodup_cons] at hnd
    by_cases hf : k = f
    · subst hf
      have hrest : docGet rest k = none :=
        docGet_none_of_not_mem hnd.1
      simp only [docUpdate]
      rw [IH hnd.2]
      simp [docGet, hrest, docGet_docSet_self]
    · simp only [docUpdate]
      rw [IH hnd.2]
      have hh : docGet ((k, v) :: rest) f = docGet rest f := by simp [docGet, hf]
      rw [hh]
      rcases hr : docGet rest f with _ | w
      · simp only []
        exact docGet_docSet_other d v (fun h => hf h.symm)
      · rfl

theorem listRemove_of_mem {l : List Doc} {d : Doc} (h : d ∈ l) :
    listRemove l d = .ok (l.erase d) := by
  induction l with
  | nil => simp at h
  | cons x rest IH =>
    by_cases hx : x = d
    · subst hx
      simp [listRemove, List.erase_cons_head]
    · have hd : d ∈ rest := by
        rcases List.mem_cons.mp h with rfl | h2
        · exact absurd rfl hx
        · exact h2
      rw [List.erase_cons_tail]
      · simp [listRemove, hx, IH hd]
      · simp [hx]

theorem removeAllPartial_skip (x : Doc) (rest ds : List Doc)
    (h : ∀ d ∈ ds, d ≠ x) :
    removeAllPartial (x :: rest) ds =
      (x :: (removeAllPartial rest ds).1, (removeAllPartial rest ds).2) := by
  induction ds generalizing rest with
  | nil => rfl
  | cons d ds2 IH =>
    have hdx : ¬ x = d := fun hh => h d (by simp) hh.symm
    rcases hr : listRemove rest d with e | l2
    · simp [removeAllPartial, listRemove, hdx, hr]
    · simp only [removeAllPartial, listRemove, if_neg hdx, hr]
      exact IH l2 (fun d2 hd2 => h d2 (List.mem_cons_of_mem _ hd2))

theorem removeAllPartial_filter (l : List Doc) (P : Doc → Bool) :
    removeAllPartial l (l.filter P) = (l.filter (fun d => !P d), none) := by
  induction l with
  | nil => rfl
  | cons x rest IH =>
    by_cases hP : P x
    · simp only [List.filter_cons, hP, if_true, removeAllPartial, listRemove, if_pos rfl,
        Bool.not_true, if_false]
      rw [IH]
      simp [List.filter_cons, hP]
    · have hne : ∀ d ∈ rest.filter P, d ≠ x := by
        intro d hd he
        subst he
        rw [List.mem_filter] at hd
        rw [hd.2] at hP
        exact hP rfl
      simp only [List.filter_cons, hP, Bool.false_eq_true, if_false]
      rw [removeAllPartial_skip x rest _ hne, IH]
      simp [List.filter_cons, hP]

theorem docsOf_eq {st : GroupState}
    (hsync : st.cache = none ∨ st.cache = some st.file) : docsOf st = st.file := by
  rcases hsync with h | h <;> simp [docsOf, h]

theorem get_one_ok_some_char {docs : List Doc} {filters : List (String × FilterSpec)}
    {d : Doc} (h : get_one docs filters none = .ok (some d)) :
    d ∈ docs ∧ matchDoc d filters = .ok true := by
  rcases hfast : isFastShape filters with _ | _
  · rw [get_one_general_eq hfast] at h
    exact findFirst_ok_some h
  · obtain ⟨key, value, rfl⟩ := isFastShape_true hfast
    rw [get_one_fast_eq] at h
    rcases hs : merge_sort docs key with e | sorted
    · rw [hs] at h
      exact (Except.noConfusion h)
    · rw [hs] at h
      obtain ⟨hmem, hkey⟩ := bsLoop_ok_some h
      refine ⟨(merge_sort_ok_perm hs).mem_iff.mp hmem, ?_⟩
      simp [matchDoc, hkey, matchDocs]

theorem update_ok_char {st : GroupState} {filters : List (String × FilterSpec)}
    {nv : Doc} {n : Nat}
    (hsync : st.cache = none ∨ st.cache = some st.file)
    (hok : (group.update st filters nv).2 = .ok n) :
    (∀ d ∈ st.file, ∃ b, matchDoc d filters = .ok b) ∧
    n = (st.file.filter (fun d => matchB d filters)).length ∧
    (group.update st filters nv).1.file =
      st.file.filter (fun d => !matchB d filters) ++
        (st.file.filter (fun d => matchB d filters)).map (fun d => docUpdate d nv) ∧
    ((group.update st filters nv).1.cache = none ∨
      (group.update st filters nv).1.cache =
        some (group.update st filters nv).1.file) := by
  have hdocs : docsOf st = st.file := docsOf_eq hsync
  rcases hf : filterDocs st.file filters with e | ms
  · have hget : group.get st filters none = .error e := by
      rw [group.get, hdocs, getAll_none_eq, hf]
    unfold group.update at hok
    rw [hget] at hok
    simp at hok
  · have hget : group.get st filters none = .ok ms := by
      rw [group.get, hdocs, getAll_none_eq, hf]
    obtain ⟨hall, hms⟩ := filterDocs_ok_inv hf
    subst hms
    refine ⟨hall, ?_⟩
    unfold group.update at hok ⊢
    rcases hsync with hc | hc
    · rw [hget, hc] at hok ⊢
      simp only [removeAllPartial_filter] at hok ⊢
      simp only [Except.ok.injEq] at hok
      subst hok
      simp [List.length_map]
    · rw [hget, hc] at hok ⊢
      simp only [removeAllPartial_filter] at hok ⊢
      simp only [Except.ok.injEq] at hok
      subst hok
      simp [List.length_map]

theorem update_one_ok_char {st : GroupState} {filters : List (String × FilterSpec)}
    {nv : Doc}
    (hsync : st.cache = none ∨ st.cache = some st.file)
    (hok : (group.update_one st filters nv).2 = .ok ()) :
    ∃ d, d ∈ st.file ∧ matchDoc d filters = .ok true ∧
      (group.update_one st filters nv).1.file =
        st.file.erase d ++ [docUpdate d nv] := by
  have hdocs : docsOf st = st.file := docsOf_eq hsync
  unfold group.update_one at hok ⊢
  rcases hg : group.get_one st filters none with e | od
  · rw [hg] at hok
    simp at hok
  · rcases od with _ | doc
    · rw [hg] at hok
      simp at hok
    · have hchar : doc ∈ st.file ∧ matchDoc doc filters = .ok true := by
        have : get_one (docsOf st) filters none = .ok (some doc) := hg
        rw [hdocs] at this
        exact get_one_ok_some_char this
      refine ⟨doc, hchar.1, hchar.2, ?_⟩
      have hlr : listRemove st.file doc = .ok (st.file.erase doc) :=
        listRemove_of_mem hchar.1
      rcases hsync with hc | hc
      · rw [hc]
        dsimp only
        rw [hlr]
      · rw [hc]
        dsimp only
        rw [hlr]

theorem remove_ok_char {st : GroupState} {filters : List (String × FilterSpec)}
    {n : Nat}
    (hsync : st.cache = none ∨ st.cache = some st.file)
    (hok : (group.remove st filters).2 = .ok n) :
    (∀ d ∈ st.file, ∃ b, matchDoc d filters = .ok b) ∧
    n = (st.file.filter (fun d => matchB d filters)).length ∧
    (group.remove st filters).1.file =
      st.file.filter (fun d => !matchB d filters) := by
  have hdocs : docsOf st = st.file := docsOf_eq hsync
  rcases hf : filterDocs st.file filters with e | ms
  · have hget : group.get st filters none = .error e := by
      rw [group.get, hdocs, getAll_none_eq, hf]
    unfold group.remove at hok
    rw [hget] at hok
    simp at hok
  · have hget : group.get st filters none = .ok ms := by
      rw [group.get, hdocs, getAll_none_eq, hf]
    obtain ⟨hall, hms⟩ := filterDocs_ok_inv hf
    subst hms
    refine ⟨hall, ?_⟩
    unfold group.remove at hok ⊢
    rcases hsync with hc | hc
    · rw [hget, hc] at hok ⊢
      simp only [removeAllPartial_filter] at hok ⊢
      simp only [Except.ok.injEq] at hok
      subst hok
      simp
    · rw [hget, hc] at hok ⊢
      simp only [removeAllPartial_filter] at hok ⊢
      simp only [Except.ok.injEq] at hok
      subst hok
      simp

theorem matchB_true_iff {d : Doc} {filters : List (String × FilterSpec)} :
    matchB d filters = true ↔ matchDoc d filters = .ok true := by
  unfold matchB
  rcases hm : matchDoc d filters with e | b
  · simp
  · rcases b <;> simp

theorem matchDoc_update_first_false {d : Doc} {rest : List (String × FilterSpec)}
    {nv : Doc} {f : String} {spec : FilterSpec} {w : Value}
    (hnd : (nv.map Prod.fst).Nodup)
    (hnv : docGet nv f = some w)
    (hkill : matchDocs w spec = .ok false) :
    matchDoc (docUpdate d nv) ((f, spec) :: rest) = .ok false := by
  have hupd : docGet (docUpdate d nv) f = some w := by
    rw [docGet_docUpdate hnd, hnv]
  simp [matchDoc, hupd, hkill]

/-- C7 (amended): a successful `update(filters, newValues)` returns exactly
the number of stored documents matching `filters`; and provided the FIRST
filter field is overwritten by `newValues` with a value that fails that
field's filter (as in the spec's example, where `status` is overwritten
with "closed" while the filter demands "open"), a subsequent
`findAll(filters)` returns the empty sequence.  Without that proviso the
claim fails: `update({s:v}, {s:v})` leaves every match still matching, and
overwriting a later operator-filter field with a value of the wrong
runtime type even makes the subsequent `findAll` raise a `TypeError`. -/
theorem update_count_and_clears (st : GroupState)
    (f : String) (spec : FilterSpec) (rest : List (String × FilterSpec))
    (nv : Doc) (w : Value) (n : Nat)
    (hsync : st.cache = none ∨ st.cache = some st.file)
    (hnd : (nv.map Prod.fst).Nodup)
    (hnv : docGet nv f = some w)
    (hkill : matchDocs w spec = .ok false)
    (hok : (group.update st ((f, spec) :: rest) nv).2 = .ok n) :
    n = (st.file.filter (fun d => matchB d ((f, spec) :: rest))).length ∧
    group.get ((group.update st ((f, spec) :: rest) nv).1)
      ((f, spec) :: rest) none = .ok [] := by
  obtain ⟨hall, hn, hfile, hcache⟩ := update_ok_char hsync hok
  refine ⟨hn, ?_⟩
  have hdocs2 : docsOf (group.update st ((f, spec) :: rest) nv).1 =
      (group.update st ((f, spec) :: rest) nv).1.file := docsOf_eq hcache
  rw [group.get, hdocs2, getAll_none_eq]
  have hfalse : ∀ d ∈ (group.update st ((f, spec) :: rest) nv).1.file,
      matchDoc d ((f, spec) :: rest) = .ok false := by
    intro d hd
    rw [hfile] at hd
    rcases List.mem_append.mp hd with h1 | h1
    · have hmemf := List.mem_filter.mp h1
      obtain ⟨b, hb⟩ := hall d hmemf.1
      rcases b
      · exact hb
      · exfalso
        have hbt : matchB d ((f, spec) :: rest) = true := matchB_true_iff.mpr hb
        have := hmemf.2
        rw [hbt] at this
        simp at this
    · obtain ⟨d0, hd0, rfl⟩ := List.mem_map.mp h1
      exact matchDoc_update_first_false hnd hnv hkill
  rw [filterDocs_ok_of_total (fun d hd => ⟨false, hfalse d hd⟩)]
  have : (group.update st ((f, spec) :: rest) nv).1.file.filter
      (fun d => matchB d ((f, spec) :: rest)) = [] := by
    rw [List.filter_eq_nil_iff]
    intro d hd
    intro hbt
    have := matchB_true_iff.mp hbt
    rw [hfalse d hd] at this
    simp at this
  rw [this]

/-- Witness for C7's amended theorem at the spec's scenario: a group of 5
documents, 3 matching `{status: "open"}` and 2 not; the update to
`{status: "closed"}` succeeds with count 3, which equals the number of
matching documents, and `findAll({status: "open"})` afterwards returns the
empty sequence. -/
theorem update_count_and_clears_witness :
    (3 : Nat) = (([[("status", Value.vStr "open"), ("id", Value.vInt 1)],
        [("status", Value.vStr "open"), ("id", Value.vInt 2)],
        [("status", Value.vStr "closed"), ("id", Value.vInt 3)],
        [("status", Value.vStr "open"), ("id", Value.vInt 4)],
        [("status", Value.vStr "done"), ("id", Value.vInt 5)]] : List Doc).filter
        (fun d => matchB d [("status", FilterSpec.plain (Value.vStr "open"))])).length ∧
    group.get ((group.update
        ⟨[[("status", Value.vStr "open"), ("id", Value.vInt 1)],
          [("status", Value.vStr "open"), ("id", Value.vInt 2)],
          [("status", Value.vStr "closed"), ("id", Value.vInt 3)],
          [("status", Value.vStr "open"), ("id", Value.vInt 4)],
          [("status", Value.vStr "done"), ("id", Value.vInt 5)]], none⟩
        [("status", FilterSpec.plain (Value.vStr "open"))]
        [("status", Value.vStr "closed")]).1)
      [("status", FilterSpec.plain (Value.vStr "open"))] none = .ok [] :=
  by
  exact update_count_and_clears
    ⟨[[("status", Value.vStr "open"), ("id", Value.vInt 1)],
      [("status", Value.vStr "open"), ("id", Value.vInt 2)],
      [("status", Value.vStr "closed"), ("id", Value.vInt 3)],
      [("status", Value.vStr "open"), ("id", Value.vInt 4)],
      [("status", Value.vStr "done"), ("id", Value.vInt 5)]], none⟩
    "status" (FilterSpec.plain (Value.vStr "open")) []
    [("status", Value.vStr "closed")]
    (Value.vStr "closed") 3
    (Or.inl rfl) (by simp) rfl (by simp [matchDocs]) rfl

/-- C8: the cache-mirror invariant.  On a group whose in-memory cache
equals the decrypt-then-parse of the group file, every mutation operation
(`insert`, `insert_many`, `update_one`, `update`, `remove_one`, `remove`)
that completes successfully leaves the cache again equal to the
decrypt-then-parse of the group file (no interference from other
processes being modelled). -/
theorem cache_mirror_invariant (st : GroupState) (hc : st.cache = some st.file) :
    (∀ d : Doc, ((group.insert st d).1).cache = some ((group.insert st d).1).file) ∧
    (∀ ds : List Doc,
      ((group.insert_many st ds).1).cache = some ((group.insert_many st ds).1).file) ∧
    (∀ (filters : List (String × FilterSpec)) (nv : Doc),
      (group.update_one st filters nv).2 = .ok () →
      ((group.update_one st filters nv).1).cache =
        some ((group.update_one st filters nv).1).file) ∧
    (∀ (filters : List (String × FilterSpec)) (nv : Doc) (n : Nat),
      (group.update st filters nv).2 = .ok n →
      ((group.update st filters nv).1).cache =
        some ((group.update st filters nv).1).file) ∧
    (∀ filters : List (String × FilterSpec),
      (group.remove_one st filters).2 = .ok () →
      ((group.remove_one st filters).1).cache =
        some ((group.remove_one st filters).1).file) ∧
    (∀ (filters : List (String × FilterSpec)) (n : Nat),
      (group.remove st filters).2 = .ok n →
      ((group.remove st filters).1).cache =
        some ((group.remove st filters).1).file) := by
  refine ⟨?_, ?_, ?_, ?_, ?_, ?_⟩
  · intro d
    simp [group.insert, hc]
  · intro ds
    simp [group.insert_many, hc]
  · intro filters nv hok
    unfold group.update_one at hok ⊢
    rcases hg : group.get_one st filters none with e | od
    · rw [hg] at hok
      simp at hok
    · rcases od with _ | doc
      · rw [hg] at hok
        simp at hok
      · rw [hg] at hok
        rcases hr : listRemove st.file doc with e | c2
        · simp [hc, hr] at hok
        · simp [hc, hr] at hok ⊢
  · intro filters nv n hok
    unfold group.update at hok ⊢
    rcases hg : group.get st filters none with e | ms
    · rw [hg] at hok
      simp at hok
    · rw [hg] at hok
      rcases hra : removeAllPartial st.file ms with ⟨l2, _ | e2⟩
      · simp [hc, hra] at hok ⊢
      · simp [hc, hra] at hok
  · intro filters hok
    unfold group.remove_one at hok ⊢
    rcases hg : group.get_one st filters none with e | od
    · rw [hg] at hok
      simp at hok
    · rcases od with _ | doc
      · rw [hg] at hok
        simp at hok
      · rw [hg] at hok
        rcases hr : listRemove st.file doc with e | c2
        · simp [hc, hr] at hok
        · simp [hc, hr] at hok ⊢
  · intro filters n hok
    unfold group.remove at hok ⊢
    rcases hg : group.get st filters none with e | ms
    · rw [hg] at hok
      simp at hok
    · rw [hg] at hok
      rcases hra : removeAllPartial st.file ms with ⟨l2, _ | e2⟩
      · simp [hc, hra] at hok ⊢
      · simp [hc, hra] at hok

/-- Witness for C8 on a synced two-document preloaded group, running all
six mutation operations at inputs where each succeeds. -/
theorem cache_mirror_invariant_witness :
    (((group.insert ⟨[[("k", Value.vInt 1)], [("k", Value.vInt 2)]],
        some [[("k", Value.vInt 1)], [("k", Value.vInt 2)]]⟩
        [("k", Value.vInt 3)]).1).cache =
      some ((group.insert ⟨[[("k", Value.vInt 1)], [("k", Value.vInt 2)]],
        some [[("k", Value.vInt 1)], [("k", Value.vInt 2)]]⟩
        [("k", Value.vInt 3)]).1).file) ∧
    (((group.update_one ⟨[[("k", Value.vInt 1)], [("k", Value.vInt 2)]],
        some [[("k", Value.vInt 1)], [("k", Value.vInt 2)]]⟩
        [("k", FilterSpec.plain (Value.vInt 1))] [("x", Value.vInt 9)]).1).cache =
      some ((group.update_one ⟨[[("k", Value.vInt 1)], [("k", Value.vInt 2)]],
        some [[("k", Value.vInt 1)], [("k", Value.vInt 2)]]⟩
        [("k", FilterSpec.plain (Value.vInt 1))] [("x", Value.vInt 9)]).1).file) ∧
    (((group.update ⟨[[("k", Value.vInt 1)], [("k", Value.vInt 2)]],
        some [[("k", Value.vInt 1)], [("k", Value.vInt 2)]]⟩
        [("k", FilterSpec.plain (Value.vInt 1))] [("x", Value.vInt 9)]).1).cache =
      some ((group.update ⟨[[("k", Value.vInt 1)], [("k", Value.vInt 2)]],
        some [[("k", Value.vInt 1)], [("k", Value.vInt 2)]]⟩
        [("k", FilterSpec.plain (Value.vInt 1))] [("x", Value.vInt 9)]).1).file) ∧
    (((group.remove_one ⟨[[("k", Value.vInt 1)], [("k", Value.vInt 2)]],
        some [[("k", Value.vInt 1)], [("k", Value.vInt 2)]]⟩
        [("k", FilterSpec.plain (Value.vInt 1))]).1).cache =
      some ((group.remove_one ⟨[[("k", Value.vInt 1)], [("k", Value.vInt 2)]],
        some [[("k", Value.vInt 1)], [("k", Value.vInt 2)]]⟩
        [("k", FilterSpec.plain (Value.vInt 1))]).1).file) ∧
    (((group.remove ⟨[[("k", Value.vInt 1)], [("k", Value.vInt 2)]],
        some [[("k", Value.vInt 1)], [("k", Value.vInt 2)]]⟩
        [("k", FilterSpec.plain (Value.vInt 1))]).1).cache =
      some ((group.remove ⟨[[("k", Value.vInt 1)], [("k", Value.vInt 2)]],
        some [[("k", Value.vInt 1)], [("k", Value.vInt 2)]]⟩
        [("k", FilterSpec.plain (Value.vInt 1))]).1).file) := by
  have h := cache_mirror_invariant
    ⟨[[("k", Value.vInt 1)], [("k", Value.vInt 2)]],
      some [[("k", Value.vInt 1)], [("k", Value.vInt 2)]]⟩ rfl
  refine ⟨h.1 _, h.2.2.1 _ _ ?_, h.2.2.2.1 _ _ 1 rfl, h.2.2.2.2.1 _ ?_,
    h.2.2.2.2.2 _ 1 rfl⟩
  · set_option maxRecDepth 4000 in
    simp +decide [group.update_one, group.get_one, docsOf, get_one, merge_sort, merge,
      binary_search, bsLoop, docGet, listRemove, Value.ble, Value.blt]
  · set_option maxRecDepth 4000 in
    simp +decide [group.remove_one, group.get_one, docsOf, get_one, merge_sort, merge,
      binary_search, bsLoop, docGet, listRemove, Value.ble, Value.blt]

/-- C9: on any group state whose documents none match the filters,
`update_one` and `remove_one` raise (`AttributeError` from `None.copy()`,
`ValueError` from `list.remove(None)`, or the propagated query exception)
rather than completing as a no-op, and the error is raised before any
write: the returned state — file and cache — is exactly the input state. -/
theorem updateOne_removeOne_no_match (st : GroupState)
    (filters : List (String × FilterSpec)) (nv : Doc)
    (hnm : ∀ d ∈ docsOf st, matchDoc d filters = .ok false) :
    ((group.update_one st filters nv).1 = st ∧
      ∃ e, (group.update_one st filters nv).2 = .error e) ∧
    ((group.remove_one st filters).1 = st ∧
      ∃ e, (group.remove_one st filters).2 = .error e) := by
  have h := get_one_no_match hnm
  have hgo : group.get_one st filters none = get_one (docsOf st) filters none := rfl
  constructor
  · unfold group.update_one
    rcases h with h | ⟨e, h⟩
    · rw [hgo, h]
      exact ⟨rfl, ⟨Err.attributeError, rfl⟩⟩
    · rw [hgo, h]
      exact ⟨rfl, ⟨e, rfl⟩⟩
  · unfold group.remove_one
    rcases h with h | ⟨e, h⟩
    · rw [hgo, h]
      exact ⟨rfl, ⟨Err.valueError, rfl⟩⟩
    · rw [hgo, h]
      exact ⟨rfl, ⟨e, rfl⟩⟩

/-- Witness for C9: on the one-document group `[{a:2}]` with the
non-matching filter `{a:1}`, both `update_one` and `remove_one` error and
leave the state unchanged. -/
theorem updateOne_removeOne_no_match_witness :
    ((group.update_one ⟨[[("a", Value.vInt 2)]], none⟩
        [("a", FilterSpec.plain (Value.vInt 1))] [("x", Value.vInt 9)]).1 =
      ⟨[[("a", Value.vInt 2)]], none⟩ ∧
      ∃ e, (group.update_one ⟨[[("a", Value.vInt 2)]], none⟩
        [("a", FilterSpec.plain (Value.vInt 1))] [("x", Value.vInt 9)]).2 =
          .error e) ∧
    ((group.remove_one ⟨[[("a", Value.vInt 2)]], none⟩
        [("a", FilterSpec.plain (Value.vInt 1))]).1 =
      ⟨[[("a", Value.vInt 2)]], none⟩ ∧
      ∃ e, (group.remove_one ⟨[[("a", Value.vInt 2)]], none⟩
        [("a", FilterSpec.plain (Value.vInt 1))]).2 = .error e) := by
  refine updateOne_removeOne_no_match _ _ _ ?_
  intro d hd
  have hd2 : d = [("a", Value.vInt 2)] := by simpa [docsOf] using hd
  subst hd2
  rfl

/-- C10 counterexample: `update_one({s:1}, {x:9})` on the group
`[{s:1}, {s:1}]` (two equal matching documents) succeeds and persists
`[{s:1}, {s:1, x:9}]`: the document left at position 0 still matches the
filters, so the persisted sequence is not "the non-matched documents
followed by the updated copies" — that reading would require
`[{s:1, x:9}]` alone. -/
theorem updateOne_keeps_other_match_in_place :
    (group.update_one ⟨[[("s", Value.vInt 1)], [("s", Value.vInt 1)]], none⟩
      [("s", FilterSpec.plain (Value.vInt 1))] [("x", Value.vInt 9)]).2 = .ok () ∧
    (group.update_one ⟨[[("s", Value.vInt 1)], [("s", Value.vInt 1)]], none⟩
      [("s", FilterSpec.plain (Value.vInt 1))] [("x", Value.vInt 9)]).1.file =
      [[("s", Value.vInt 1)], [("s", Value.vInt 1), ("x", Value.vInt 9)]] ∧
    matchDoc [("s", Value.vInt 1)] [("s", FilterSpec.plain (Value.vInt 1))] =
      .ok true ∧
    ([[("s", Value.vInt 1)], [("s", Value.vInt 1), ("x", Value.vInt 9)]] : List Doc) ≠
      [[("s", Value.vInt 1), ("x", Value.vInt 9)]] := by
  refine ⟨?_, ?_, rfl, by decide⟩
  · set_option maxRecDepth 4000 in
    simp +decide [group.update_one, group.get_one, docsOf, get_one, merge_sort, merge,
      binary_search, bsLoop, docGet, listRemove, docUpdate, docSet, Value.ble, Value.blt]
  · set_option maxRecDepth 4000 in
    simp +decide [group.update_one, group.get_one, docsOf, get_one, merge_sort, merge,
      binary_search, bsLoop, docGet, listRemove, docUpdate, docSet, Value.ble, Value.blt]

/-- C10 (amended): after a successful `update`, the persisted sequence is
the non-matched documents in their original relative order followed by the
updated copies appended at the end; after a successful `update_one`, it is
the original sequence minus one occurrence of the single fetched matching
document — every other document, matched or not, keeping its original
relative order — followed by that document's updated copy appended at the
end. -/
theorem update_moves_updated_docs (st : GroupState)
    (filters : List (String × FilterSpec)) (nv : Doc)
    (hsync : st.cache = none ∨ st.cache = some st.file) :
    (∀ n, (group.update st filters nv).2 = .ok n →
      (group.update st filters nv).1.file =
        st.file.filter (fun d => !matchB d filters) ++
          (st.file.filter (fun d => matchB d filters)).map (fun d => docUpdate d nv)) ∧
    ((group.update_one st filters nv).2 = .ok () →
      ∃ d, d ∈ st.file ∧ matchDoc d filters = .ok true ∧
        (group.update_one st filters nv).1.file =
          st.file.erase d ++ [docUpdate d nv]) :=
  ⟨fun _ hok => (update_ok_char hsync hok).2.2.1,
   fun hok => update_one_ok_char hsync hok⟩

/-- Witness for C10's amended theorem on the group `[{k:1}, {k:2}]` with
filter `{k:1}` and new values `{x:9}`, where both `update` and
`update_one` succeed. -/
theorem update_moves_updated_docs_witness :
    ((group.update ⟨[[("k", Value.vInt 1)], [("k", Value.vInt 2)]], none⟩
        [("k", FilterSpec.plain (Value.vInt 1))] [("x", Value.vInt 9)]).1.file =
      ([[("k", Value.vInt 1)], [("k", Value.vInt 2)]] : List Doc).filter
          (fun d => !matchB d [("k", FilterSpec.plain (Value.vInt 1))]) ++
        (([[("k", Value.vInt 1)], [("k", Value.vInt 2)]] : List Doc).filter
          (fun d => matchB d [("k", FilterSpec.plain (Value.vInt 1))])).map
          (fun d => docUpdate d [("x", Value.vInt 9)])) ∧
    (∃ d, d ∈ ([[("k", Value.vInt 1)], [("k", Value.vInt 2)]] : List Doc) ∧
      matchDoc d [("k", FilterSpec.plain (Value.vInt 1))] = .ok true ∧
      (group.update_one ⟨[[("k", Value.vInt 1)], [("k", Value.vInt 2)]], none⟩
        [("k", FilterSpec.plain (Value.vInt 1))] [("x", Value.vInt 9)]).1.file =
        ([[("k", Value.vInt 1)], [("k", Value.vInt 2)]] : List Doc).erase d ++
          [docUpdate d [("x", Value.vInt 9)]]) := by
  have h := update_moves_updated_docs
    ⟨[[("k", Value.vInt 1)], [("k", Value.vInt 2)]], none⟩
    [("k", FilterSpec.plain (Value.vInt 1))] [("x", Value.vInt 9)] (Or.inl rfl)
  refine ⟨h.1 1 rfl, h.2 ?_⟩
  set_option maxRecDepth 4000 in
  simp +decide [group.update_one, group.get_one, docsOf, get_one, merge_sort, merge,
    binary_search, bsLoop, docGet, listRemove, docUpdate, docSet, Value.ble, Value.blt]

/-- C7 counterexample: `update({s:1}, {s:1})` on the one-document group
`[{s:1}]` succeeds with count 1 — `newValues` overwrites the filter field
`s` — yet `findAll({s:1})` afterwards still returns the document: a stored
document still matches a filter field that `newValues` overwrote,
contradicting the claim as stated. -/
theorem update_same_value_keeps_matches :
    (group.update ⟨[[("s", Value.vInt 1)]], none⟩
      [("s", FilterSpec.plain (Value.vInt 1))] [("s", Value.vInt 1)]).2 = .ok 1 ∧
    group.get ((group.update ⟨[[("s", Value.vInt 1)]], none⟩
      [("s", FilterSpec.plain (Value.vInt 1))] [("s", Value.vInt 1)]).1)
      [("s", FilterSpec.plain (Value.vInt 1))] none = .ok [[("s", Value.vInt 1)]] :=
  ⟨rfl, rfl⟩

end AmazeDB
